import Mathlib

/-!
Verification of the GF(2) linear-algebra engine and CSS-code model of the
`css_make` repository.

Binary matrices are embedded as `Matrix (Fin m) (Fin n) (ZMod 2)`: the Python
code stores integer entries and reduces mod 2 after every row operation, and
every claim under consideration quantifies over binary matrices only, so
entries live in the field with two elements.  The engine functions of the
external `ldpc` package (`mod2.rank`, `mod2.nullspace`, `mod2.row_basis`,
`mod2.inverse`) are not part of the repository sources and are modelled from
the specification; `row_echelon` itself is translated from
`src/css_make/utils.py`.
-/

set_option maxHeartbeats 1000000

namespace CssMake

open Matrix

/-- Entry of a matrix at a natural row index, `0` when the index is out of
range.  The Python code never actually reads out of range (the `break` in
`row_echelon` prevents it); the default makes the embedding total. -/
def getEntry {m n : ℕ} (M : Matrix (Fin m) (Fin n) (ZMod 2)) (r : ℕ) (col : Fin n) : ZMod 2 :=
  if h : r < m then M ⟨r, h⟩ col else 0

/-- Row swap `the_matrix[[a, b]] = the_matrix[[b, a]]`. -/
def swapRows {m n : ℕ} {α : Type} (M : Matrix (Fin m) (Fin n) α) (a b : Fin m) :
    Matrix (Fin m) (Fin n) α :=
  Matrix.of fun i j => if i = a then M b j else if i = b then M a j else M i j

/-- Row update `the_matrix[t] = (the_matrix[t] + the_matrix[s]) % 2`. -/
def addRowTo {m n : ℕ} (M : Matrix (Fin m) (Fin n) (ZMod 2)) (t s : Fin m) :
    Matrix (Fin m) (Fin n) (ZMod 2) :=
  Matrix.of fun i j => if i = t then M i j + M s j else M i j

/-- Working state of the Gaussian elimination in `row_echelon`
(`src/css_make/utils.py`): the matrix being reduced, the accumulated
transformation matrix, the current pivot row and the pivot columns found so
far.  The final state packages the quadruple the Python function returns
(`pivotRow` is returned as the rank). -/
structure EchState (m n : ℕ) where
  mat : Matrix (Fin m) (Fin n) (ZMod 2)
  transform : Matrix (Fin m) (Fin m) (ZMod 2)
  pivotRow : ℕ
  pivotCols : List (Fin n)

/-- Embedding of `np.argmax(the_matrix[pivot_row:num_rows, col])`: on a 0/1
column slice `np.argmax` returns the index of the first maximal entry, which
is the first `1` when one exists and `0` otherwise. -/
def sliceArgmax {m n : ℕ} (M : Matrix (Fin m) (Fin n) (ZMod 2)) (pr : ℕ) (col : Fin n) : ℕ :=
  (((List.range (m - pr)).findIdx? fun k => decide (getEntry M (pr + k) col = 1)).getD 0)

/-- Swap phase of one column iteration of `row_echelon`: when the pivot slot
does not hold a `1`, look for the first row at or below the pivot row with a
`1` in this column and swap it up (in the matrix and the transform alike). -/
def swapPhase {m n : ℕ} (S : EchState m n) (pr : Fin m) (col : Fin n) : EchState m n :=
  if S.mat pr col ≠ 1 then
    let si := (pr : ℕ) + sliceArgmax S.mat pr col
    if hsi : si < m then
      if S.mat ⟨si, hsi⟩ col = 1 then
        { S with mat := swapRows S.mat ⟨si, hsi⟩ pr,
                 transform := swapRows S.transform ⟨si, hsi⟩ pr }
      else S
    else S
  else S

/-- Elimination range of `row_echelon`: rows strictly below the pivot when
`full = false`, every row other than the pivot when `full = true`. -/
def elimRange (m : ℕ) (full : Bool) (pr : ℕ) : List ℕ :=
  if full then (List.range m).filter (fun k => decide (k ≠ pr))
  else List.range' (pr + 1) (m - (pr + 1))

/-- Inner elimination step of `row_echelon`: XOR the pivot row into row `j`
of the matrix and of the transform when row `j` has a nonzero entry in the
pivot column (`if the_matrix[j, col] != 0 and pivot_row != j`). -/
def elimRow {m n : ℕ} (pr : Fin m) (col : Fin n) (S : EchState m n) (j : ℕ) : EchState m n :=
  if hj : j < m then
    if S.mat ⟨j, hj⟩ col ≠ 0 ∧ j ≠ (pr : ℕ) then
      { S with mat := addRowTo S.mat ⟨j, hj⟩ pr,
               transform := addRowTo S.transform ⟨j, hj⟩ pr }
    else S
  else S

/-- Elimination phase of one column iteration of `row_echelon`: if the pivot
slot holds a nonzero entry, clear the column on the elimination range, advance
the pivot row and record the pivot column. -/
def elimPhase {m n : ℕ} (full : Bool) (S : EchState m n) (pr : Fin m) (col : Fin n) :
    EchState m n :=
  if S.mat pr col ≠ 0 then
    let S2 := (elimRange m full (pr : ℕ)).foldl (elimRow pr col) S
    { S2 with pivotRow := (pr : ℕ) + 1, pivotCols := S.pivotCols ++ [col] }
  else S

/-- One iteration of the column loop of `row_echelon`.  The early `break` once
`pivot_row` reaches `num_rows` is modelled by making every later iteration the
identity. -/
def colStep {m n : ℕ} (full : Bool) (S : EchState m n) (col : Fin n) : EchState m n :=
  if hpr : S.pivotRow < m then
    elimPhase full (swapPhase S ⟨S.pivotRow, hpr⟩ col) ⟨S.pivotRow, hpr⟩ col
  else S

/-- Embedding of `row_echelon(matrix, full)` from `src/css_make/utils.py`
(the same algorithm serves as the engine's reduction in the spec): Gaussian
elimination mod 2, column-major, starting from the identity transform. -/
def rowEchelon {m n : ℕ} (full : Bool) (A : Matrix (Fin m) (Fin n) (ZMod 2)) : EchState m n :=
  (List.finRange n).foldl (colStep full) ⟨A, 1, 0, []⟩

/-- First return value of `row_echelon` with the default `full=False`: the row
echelon form of the input. -/
def rowEchelonForm {m n : ℕ} (A : Matrix (Fin m) (Fin n) (ZMod 2)) :
    Matrix (Fin m) (Fin n) (ZMod 2) :=
  (rowEchelon false A).mat

/-- Modelled from the spec: the engine's `rank(M)` is the rank returned by
`row_echelon(M, full=false)`. -/
def mod2rank {m n : ℕ} (A : Matrix (Fin m) (Fin n) (ZMod 2)) : ℕ :=
  (rowEchelon false A).pivotRow

/-- Pivot column list returned by the default (`full=false`) reduction. -/
def pivotList {m n : ℕ} (A : Matrix (Fin m) (Fin n) (ZMod 2)) : List (Fin n) :=
  (rowEchelon false A).pivotCols

/-- Matrix whose rows are the entries of a list of vectors, as produced by
`np.vstack` on a list of row vectors. -/
def ofRows {n : ℕ} (L : List (Fin n → ZMod 2)) : Matrix (Fin L.length) (Fin n) (ZMod 2) :=
  Matrix.of fun i j => L.get i j

/-- Free (non-pivot) columns of a reduction, in increasing column order. -/
def freeCols {n : ℕ} (P : List (Fin n)) : List (Fin n) :=
  (List.finRange n).filter fun j => decide (j ∉ P)

/-- Basis vector of the null space contributed by the free column `f` of a
reduced echelon form `R` with pivot columns `P`: the vector holds `1` at `f`,
the entry `R[i, f]` at the `i`-th pivot column, and `0` elsewhere (this is the
back-substitution over the pivot structure the spec describes). -/
def backSubstVec {m n : ℕ} (R : Matrix (Fin m) (Fin n) (ZMod 2)) (P : List (Fin n))
    (f : Fin n) : Fin n → ZMod 2 := fun j =>
  if j = f then 1
  else if j ∈ P then (if h : P.indexOf j < m then R ⟨P.indexOf j, h⟩ f else 0) else 0

/-- Modelled from the spec: the engine's `nullspace(M)` returns a basis (as
rows) for the right null space of `M`, derived from the free columns of the
reduced (`full=true`) echelon form of `M`, one basis vector per free column by
back-substitution over the pivot structure. -/
def nullspaceRows {m n : ℕ} (A : Matrix (Fin m) (Fin n) (ZMod 2)) : List (Fin n → ZMod 2) :=
  let S := rowEchelon true A
  (freeCols S.pivotCols).map (backSubstVec S.mat S.pivotCols)

/-- Modelled from the spec: the engine's `row_basis(M)` returns the independent
rows of `M` selected by the pivot rows found during reduction; the pivot rows
of `M` are the pivot columns of `Mᵀ`. -/
def rowBasisRows {m n : ℕ} (A : Matrix (Fin m) (Fin n) (ZMod 2)) : List (Fin n → ZMod 2) :=
  (pivotList Aᵀ).map fun i => A i

/-- Embedding of `CssCode._compute_lz(hx, hz)` from `src/css_make/css.py`:
stack a row basis of the second argument above a kernel basis of the first,
row reduce the transpose of the stack, and keep the kernel rows whose index is
a pivot column of that reduction. -/
def compute_lz {ma mb N : ℕ} (ha : Matrix (Fin ma) (Fin N) (ZMod 2))
    (hb : Matrix (Fin mb) (Fin N) (ZMod 2)) : List (Fin N → ZMod 2) :=
  let ker := nullspaceRows ha
  let img := rowBasisRows hb
  let stack := img ++ ker
  let piv : List ℕ := ((rowEchelon false (ofRows stack)ᵀ).pivotCols).map Fin.val
  ((List.range' img.length ker.length).filter fun i => decide (i ∈ piv)).map
    fun i => stack.getD i fun _ => 0

/-- Embedding of the cached property `CssCode.lx`: `self._compute_lz(self.hz, self.hx)`. -/
def lxRows {mx mz N : ℕ} (hx : Matrix (Fin mx) (Fin N) (ZMod 2))
    (hz : Matrix (Fin mz) (Fin N) (ZMod 2)) : List (Fin N → ZMod 2) :=
  compute_lz hz hx

/-- Embedding of the cached property `CssCode.lz`: `self._compute_lz(self.hx, self.hz)`. -/
def lzRows {mx mz N : ℕ} (hx : Matrix (Fin mx) (Fin N) (ZMod 2))
    (hz : Matrix (Fin mz) (Fin N) (ZMod 2)) : List (Fin N → ZMod 2) :=
  compute_lz hx hz

/-- Stack built inside `_compute_lz`: the row basis of the second argument on
top of the kernel basis of the first (`np.vstack([im_hzT, ker_hx])`). -/
def lzStack {ma mb N : ℕ} (ha : Matrix (Fin ma) (Fin N) (ZMod 2))
    (hb : Matrix (Fin mb) (Fin N) (ZMod 2)) : List (Fin N → ZMod 2) :=
  rowBasisRows hb ++ nullspaceRows ha

/-- Pivot columns found by row reducing the transposed stack in `_compute_lz`. -/
def lzPivots {ma mb N : ℕ} (ha : Matrix (Fin ma) (Fin N) (ZMod 2))
    (hb : Matrix (Fin mb) (Fin N) (ZMod 2)) : List (Fin (lzStack ha hb).length) :=
  (rowEchelon false (ofRows (lzStack ha hb))ᵀ).pivotCols

/-- Pivot indices of the stack reduction that fall inside the kernel block
(`log_op_indices`, as positions into the stack). -/
def lzSelected {ma mb N : ℕ} (ha : Matrix (Fin ma) (Fin N) (ZMod 2))
    (hb : Matrix (Fin mb) (Fin N) (ZMod 2)) : List (Fin (lzStack ha hb).length) :=
  (lzPivots ha hb).filter fun p => !decide ((p : ℕ) < (rowBasisRows hb).length)

/-- Modelled from the spec: the engine's `inverse(M)` returns the mod-2 inverse
of a square full-rank matrix and fails with a singularity error (here: `none`)
otherwise.  Over `ZMod 2` a square matrix has full rank exactly when its
determinant is `1`, and then its adjugate is its inverse. -/
def mod2inverse {k : ℕ} (M : Matrix (Fin k) (Fin k) (ZMod 2)) :
    Option (Matrix (Fin k) (Fin k) (ZMod 2)) :=
  if M.det = 1 then some M.adjugate else none

/-- Embedding of the cached property `CssCode.canonical_lx`:
`mod2.inverse(self.lx @ self.lz.T % 2) @ self.lx % 2`, with the engine's
singularity failure propagated (as `none`). -/
def canonical_lx {k N : ℕ} (lx lz : Matrix (Fin k) (Fin N) (ZMod 2)) :
    Option (Matrix (Fin k) (Fin N) (ZMod 2)) :=
  (mod2inverse (lx * lzᵀ)).map fun T => T * lx

/-- Outcome of one validity check as recorded by `CssCode.test`: the boolean
result, or `none` when evaluating the check raised (the `except` branch
records `None`, reported as Skipped). -/
def checkOutcome (c : Except String Bool) : Option Bool :=
  match c with
  | .ok b => some b
  | .error _ => none

/-- Embedding of the result dictionary built by `CssCode.test`: each check is
evaluated independently, in order, and a raising check is recorded as `none`
instead of aborting the loop. -/
def testResults (checks : List (String × Except String Bool)) : List (String × Option Bool) :=
  checks.map fun nc => (nc.1, checkOutcome nc.2)

/-- Embedding of `valid = all(results.values())` in `CssCode.test`: `True` is
truthy while `False` and `None` are falsy, so the aggregate holds exactly when
every check evaluated to `True`. -/
def testValid (checks : List (String × Except String Bool)) : Bool :=
  (testResults checks).all fun r => r.2 == some true

/-- Embedding of `CssCode._tests_list` evaluated on a code with stabilizer
matrices `hx`, `hz`: the six named checks, in the order of the source.  In the
embedding the matrices are well-typed, so each check evaluates without
raising; `testValid` handles the raising case for arbitrary check lists. -/
def cssTestsList {mx mz N : ℕ} (hx : Matrix (Fin mx) (Fin N) (ZMod 2))
    (hz : Matrix (Fin mz) (Fin N) (ZMod 2)) : List (String × Except String Bool) :=
  let lxM := ofRows (lxRows hx hz)
  let lzM := ofRows (lzRows hx hz)
  let K := N - mod2rank hx - mod2rank hz
  [("Block dimensions[N, K, lz, lx]",
      .ok (decide (K = (lzRows hx hz).length ∧ K = (lxRows hx hz).length))),
   ("PCMs commute hz@hx.T==0[hz, hx]", .ok (decide (hz * hxᵀ = 0))),
   ("PCMs commute hx@hz.T==0[hx, hz]", .ok (decide (hx * hzᵀ = 0))),
   ("-lx in ker hz AND lz in ker hx[hz, lx]", .ok (decide (hz * lxMᵀ = 0))),
   ("-lx in ker hz AND lz in ker hx[hx, lz]", .ok (decide (hx * lzMᵀ = 0))),
   ("-lx and lz anticommute[lx, lz]", .ok (decide (mod2rank (lxM * lzMᵀ) = K)))]

/-- Embedding of `CssCode.test(show=False)`: the aggregate boolean over the
six checks. -/
def cssTest {mx mz N : ℕ} (hx : Matrix (Fin mx) (Fin N) (ZMod 2))
    (hz : Matrix (Fin mz) (Fin N) (ZMod 2)) : Bool :=
  testValid (cssTestsList hx hz)

/-- Embedding of `np.kron` on flattened indices: numpy defines
`kron(a, b)[i1*m2 + i2, j1*n2 + j2] = a[i1, j1] * b[i2, j2]`, i.e. entry
`(i, j)` equals `a[i / m2, j / n2] * b[i % m2, j % n2]`. -/
def kron {m1 n1 m2 n2 : ℕ} (A : Matrix (Fin m1) (Fin n1) (ZMod 2))
    (B : Matrix (Fin m2) (Fin n2) (ZMod 2)) :
    Matrix (Fin (m1 * m2)) (Fin (n1 * n2)) (ZMod 2) :=
  Matrix.of fun i j =>
    A ⟨(i : ℕ) / m2, by
          have h := i.isLt
          exact Nat.div_lt_of_lt_mul (by rw [Nat.mul_comm m2 m1]; exact h)⟩
      ⟨(j : ℕ) / n2, by
          have h := j.isLt
          exact Nat.div_lt_of_lt_mul (by rw [Nat.mul_comm n2 n1]; exact h)⟩ *
    B ⟨(i : ℕ) % m2, by
          have h := i.isLt
          exact Nat.mod_lt _ (Nat.pos_of_ne_zero fun h0 => by simp [h0] at h)⟩
      ⟨(j : ℕ) % n2, by
          have h := j.isLt
          exact Nat.mod_lt _ (Nat.pos_of_ne_zero fun h0 => by simp [h0] at h)⟩

/-- Embedding of `np.hstack` on two blocks with the same number of rows. -/
def hstackM {m n1 n2 : ℕ} (A : Matrix (Fin m) (Fin n1) (ZMod 2))
    (B : Matrix (Fin m) (Fin n2) (ZMod 2)) : Matrix (Fin m) (Fin (n1 + n2)) (ZMod 2) :=
  Matrix.of fun i j =>
    if h : (j : ℕ) < n1 then A i ⟨j, h⟩
    else B i ⟨(j : ℕ) - n1, by have := j.isLt; omega⟩

/-- Embedding of `np.vstack` on two blocks with the same number of columns. -/
def vstackM {m1 m2 n : ℕ} (A : Matrix (Fin m1) (Fin n) (ZMod 2))
    (B : Matrix (Fin m2) (Fin n) (ZMod 2)) : Matrix (Fin (m1 + m2)) (Fin n) (ZMod 2) :=
  Matrix.of fun i j =>
    if h : (i : ℕ) < m1 then A ⟨i, h⟩ j
    else B ⟨(i : ℕ) - m1, by have := i.isLt; omega⟩ j

/-- Shape of an embedded numpy matrix, `np.shape`. -/
def npShape {m n : ℕ} (_ : Matrix (Fin m) (Fin n) (ZMod 2)) : ℕ × ℕ := (m, n)

/-- Embedding of the `hx` block construction in `HGP.__init__`
(`src/css_make/css.py`): `hx = np.hstack([np.kron(h1, i_n2), np.kron(i_m1, h2.T)])`. -/
def HGP_hx {m1 n1 m2 n2 : ℕ} (h1 : Matrix (Fin m1) (Fin n1) (ZMod 2))
    (h2 : Matrix (Fin m2) (Fin n2) (ZMod 2)) :
    Matrix (Fin (m1 * n2)) (Fin (n1 * n2 + m1 * m2)) (ZMod 2) :=
  hstackM (kron h1 (1 : Matrix (Fin n2) (Fin n2) (ZMod 2)))
    (kron (1 : Matrix (Fin m1) (Fin m1) (ZMod 2)) h2ᵀ)

/-- Embedding of the `hz` block construction in `HGP.__init__`:
`hz = np.hstack([np.kron(i_n1, h2), np.kron(h1.T, i_m2)])`. -/
def HGP_hz {m1 n1 m2 n2 : ℕ} (h1 : Matrix (Fin m1) (Fin n1) (ZMod 2))
    (h2 : Matrix (Fin m2) (Fin n2) (ZMod 2)) :
    Matrix (Fin (n1 * m2)) (Fin (n1 * n2 + m1 * m2)) (ZMod 2) :=
  hstackM (kron (1 : Matrix (Fin n1) (Fin n1) (ZMod 2)) h2)
    (kron h1ᵀ (1 : Matrix (Fin m2) (Fin m2) (ZMod 2)))

/-- Embedding of the cached property `CssCode.h`:
`np.hstack([np.vstack([zeros(hz.shape), hx]), np.vstack([hz, zeros(hx.shape)])])`.
The same combination builds `CssCode.l` from `lz.shape`-zeros, `lx`, `lz` and
`hx.shape`-zeros, so it is stated for arbitrary blocks. -/
def cssH {mx mz n : ℕ} (hx : Matrix (Fin mx) (Fin n) (ZMod 2))
    (hz : Matrix (Fin mz) (Fin n) (ZMod 2)) : Matrix (Fin (mz + mx)) (Fin (n + n)) (ZMod 2) :=
  hstackM (vstackM (0 : Matrix (Fin mz) (Fin n) (ZMod 2)) hx)
    (vstackM hz (0 : Matrix (Fin mx) (Fin n) (ZMod 2)))

/-- Combination claim C8 attributes to `CssCode.h`: the block-diagonal stack
`[[hx, 0], [0, hz]]`.  Written from the claim's words, for comparison with
`cssH`. -/
def cssH_claimed {mx mz n : ℕ} (hx : Matrix (Fin mx) (Fin n) (ZMod 2))
    (hz : Matrix (Fin mz) (Fin n) (ZMod 2)) : Matrix (Fin (mx + mz)) (Fin (n + n)) (ZMod 2) :=
  hstackM (vstackM hx (0 : Matrix (Fin mz) (Fin n) (ZMod 2)))
    (vstackM (0 : Matrix (Fin mx) (Fin n) (ZMod 2)) hz)

/-- Value of a Python attribute as far as `CssCode.save` inspects it: a numpy
ndarray, or something else. -/
inductive PropVal
  | matrix
  | other
deriving DecidableEq

/-- Events emitted by `CssCode.save`: the "Skipping .." diagnostic for a
property that is absent or not an ndarray, and a successful `save_alist`
write. -/
inductive SaveEvent
  | diagnostic (prop : String)
  | wrote (file : String)
deriving DecidableEq

/-- Embedding of `CssCode.save(save_property, code_name)` from
`src/css_make/css.py`.  `lookup` models `getattr`/`hasattr` on the instance
and `saveAlist` models the external `save_alist` collaborator.  For each
requested property the code prints the diagnostic when the attribute is
absent or not an ndarray, but the following `save_alist(f"{code_name}_{prop}.alist",
getattr(self, prop))` call is not guarded: `getattr` on an absent attribute
raises `AttributeError`, and a present non-ndarray value is still handed to
`save_alist`. -/
def save (lookup : String → Option PropVal)
    (saveAlist : String → PropVal → Except String Unit)
    (props : List String) (codeName : String) : Except String (List SaveEvent) :=
  match props with
  | [] => .ok []
  | prop :: rest =>
    let diag : List SaveEvent :=
      if lookup prop = some PropVal.matrix then [] else [SaveEvent.diagnostic prop]
    match lookup prop with
    | none => .error "AttributeError"
    | some v =>
      match saveAlist (codeName ++ "_" ++ prop ++ ".alist") v with
      | .error e => .error e
      | .ok _ =>
        match save lookup saveAlist rest codeName with
        | .error e => .error e
        | .ok evs => .ok (diag ++ [SaveEvent.wrote (codeName ++ "_" ++ prop ++ ".alist")] ++ evs)

/-- Embedding of `CssCode.__init__` from `src/css_make/css.py` for matrices
`hx`, `hz` of the given shapes and extra keyword arguments: evaluating
`self.N` raises when the column counts differ; when `N == 0` a warning is
printed and the constructor returns early, never calling `self.set(**kwargs)`;
otherwise `set` applies every keyword argument.  The result records the
warning flag and the keyword overrides that were applied. -/
def cssInit {mx nx mz nz : ℕ} {α : Type}
    (_ : Matrix (Fin mx) (Fin nx) (ZMod 2)) (_ : Matrix (Fin mz) (Fin nz) (ZMod 2))
    (kwargs : List (String × α)) : Except String (Bool × List (String × α)) :=
  if nx = nz then
    if nx = 0 then .ok (true, [])
    else .ok (false, kwargs)
  else .error "Error: hx and hz matrices must have equal numbers of columns!"

/-- Specification-side description of the pivot search of claim C6: the first
row at or below `pr` holding a `1` in the column, if any. -/
def firstOneRow {m n : ℕ} (M : Matrix (Fin m) (Fin n) (ZMod 2)) (pr : ℕ) (col : Fin n) :
    Option (Fin m) :=
  (List.finRange m).find? fun r => decide (pr ≤ (r : ℕ) ∧ M r col = 1)

/-- Span of the entries of a list of row vectors. -/
def listSpan {n : ℕ} (L : List (Fin n → ZMod 2)) : Submodule (ZMod 2) (Fin n → ZMod 2) :=
  Submodule.span (ZMod 2) {v | v ∈ L}

/-- Row space of a matrix. -/
def rowSpan {m n : ℕ} (A : Matrix (Fin m) (Fin n) (ZMod 2)) :
    Submodule (ZMod 2) (Fin n → ZMod 2) :=
  Submodule.span (ZMod 2) (Set.range A)

/-- Right null space of a matrix, `{v | A @ v ≡ 0 (mod 2)}`. -/
def nullSpace {m n : ℕ} (A : Matrix (Fin m) (Fin n) (ZMod 2)) :
    Submodule (ZMod 2) (Fin n → ZMod 2) :=
  LinearMap.ker A.mulVecLin

/-- Rows of a matrix as a list. -/
def rowsList {m n : ℕ} (A : Matrix (Fin m) (Fin n) (ZMod 2)) : List (Fin n → ZMod 2) :=
  (List.finRange m).map fun i => A i

/-- Number of entries of `P` below the column bound `j`. -/
def idxBelow {n : ℕ} (P : List (Fin n)) (j : ℕ) : ℕ :=
  (P.filter fun p => decide (Fin.val p < j)).length

/-- Invariant carried through the column loop of `row_echelon` after the first
`c` columns have been processed: the transform is invertible and maps the
input to the working matrix, the pivot columns are strictly increasing and
below `c` with the pivot entries equal to `1` and the pivot columns cleared
below (also above when `full = true`), each pivot row vanishes left of its
pivot, and every row at or below the current pivot row vanishes on all
processed columns. -/
structure EchInv {m n : ℕ} (A : Matrix (Fin m) (Fin n) (ZMod 2)) (full : Bool) (c : ℕ)
    (S : EchState m n) : Prop where
  teq : S.transform * A = S.mat
  tunit : ∃ U, U * S.transform = 1
  prle : S.pivotRow ≤ m
  plen : S.pivotCols.length = S.pivotRow
  plt : ∀ p ∈ S.pivotCols, (p : ℕ) < c
  psorted : List.Pairwise (fun p q => Fin.val p < Fin.val q) S.pivotCols
  pone : ∀ (i : Fin S.pivotCols.length) (hm : (i : ℕ) < m),
    S.mat ⟨i, hm⟩ (S.pivotCols.get i) = 1
  pzero : ∀ (i : Fin S.pivotCols.length) (r : Fin m), (i : ℕ) < (r : ℕ) →
    S.mat r (S.pivotCols.get i) = 0
  pzeroAbove : full = true → ∀ (i : Fin S.pivotCols.length) (r : Fin m), (r : ℕ) ≠ (i : ℕ) →
    S.mat r (S.pivotCols.get i) = 0
  leftz : ∀ (i : Fin S.pivotCols.length) (hm : (i : ℕ) < m) (j : Fin n),
    (j : ℕ) < (S.pivotCols.get i : ℕ) → S.mat ⟨i, hm⟩ j = 0
  tailz : ∀ (r : Fin m), S.pivotRow ≤ (r : ℕ) → ∀ (j : Fin n), (j : ℕ) < c → S.mat r j = 0

/-- Concrete binary matrix `[[1, 1]]`, a one-qubit-free CSS seed. -/
def exTwoOnes : Matrix (Fin 1) (Fin 2) (ZMod 2) := !![1, 1]

/-- Concrete binary matrix `[[0, 1], [1, 0]]`, which forces a row swap in the
first column of the elimination. -/
def exSwapMat : Matrix (Fin 2) (Fin 2) (ZMod 2) := !![0, 1; 1, 0]

/-- Concrete binary matrix `[[1, 1], [1, 1]]` of rank 1. -/
def exSquare : Matrix (Fin 2) (Fin 2) (ZMod 2) := !![1, 1; 1, 1]

/-- Concrete binary matrix `[[1]]`. -/
def exOne : Matrix (Fin 1) (Fin 1) (ZMod 2) := !![1]

/-- Concrete binary matrix with one row and zero columns, the shape of the
default `np.array([[]])` argument of `CssCode.__init__`. -/
def exZeroCols : Matrix (Fin 1) (Fin 0) (ZMod 2) := 0

/-- Concrete binary zero matrix with one row and three columns. -/
def exThreeCols : Matrix (Fin 1) (Fin 3) (ZMod 2) := 0

/-! ### Basic facts about `ZMod 2` and the row operations -/

theorem zmod2_eq_zero_of_ne_one {x : ZMod 2} (h : x ≠ 1) : x = 0 := by
  revert h; revert x; decide

theorem zmod2_eq_one_of_ne_zero {x : ZMod 2} (h : x ≠ 0) : x = 1 := by
  revert h; revert x; decide

theorem zmod2_add_self (x : ZMod 2) : x + x = 0 := by
  revert x; decide

theorem swapRows_self {m n : ℕ} {α : Type} (M : Matrix (Fin m) (Fin n) α) (a : Fin m) :
    swapRows M a a = M := by
  ext i j
  by_cases h : i = a <;> simp [swapRows, h]

theorem swapRows_fst {m n : ℕ} {α : Type} (M : Matrix (Fin m) (Fin n) α) (a b : Fin m) :
    swapRows M a b a = M b := by
  funext j; simp [swapRows]

theorem swapRows_snd {m n : ℕ} {α : Type} (M : Matrix (Fin m) (Fin n) α) (a b : Fin m) :
    swapRows M a b b = M a := by
  funext j
  by_cases h : b = a
  · subst h; simp [swapRows]
  · simp [swapRows, h]

theorem swapRows_other {m n : ℕ} {α : Type} (M : Matrix (Fin m) (Fin n) α) (a b i : Fin m)
    (h1 : i ≠ a) (h2 : i ≠ b) : swapRows M a b i = M i := by
  funext j; simp [swapRows, h1, h2]

theorem addRowTo_target {m n : ℕ} (M : Matrix (Fin m) (Fin n) (ZMod 2)) (t s : Fin m) :
    addRowTo M t s t = M t + M s := by
  funext j; simp [addRowTo]

theorem addRowTo_other {m n : ℕ} (M : Matrix (Fin m) (Fin n) (ZMod 2)) (t s i : Fin m)
    (h : i ≠ t) : addRowTo M t s i = M i := by
  funext j; simp [addRowTo, h]

theorem swapRows_mul {m n : ℕ} (T : Matrix (Fin m) (Fin m) (ZMod 2))
    (A : Matrix (Fin m) (Fin n) (ZMod 2)) (a b : Fin m) :
    swapRows T a b * A = swapRows (T * A) a b := by
  ext i j
  by_cases h1 : i = a
  · subst h1; simp [swapRows, Matrix.mul_apply]
  · by_cases h2 : i = b
    · subst h2; simp [swapRows, Matrix.mul_apply, h1]
    · simp [swapRows, Matrix.mul_apply, h1, h2]

theorem addRowTo_mul {m n : ℕ} (T : Matrix (Fin m) (Fin m) (ZMod 2))
    (A : Matrix (Fin m) (Fin n) (ZMod 2)) (t s : Fin m) :
    addRowTo T t s * A = addRowTo (T * A) t s := by
  ext i j
  by_cases h : i = t
  · subst h; simp [addRowTo, Matrix.mul_apply, add_mul, Finset.sum_add_distrib]
  · simp [addRowTo, Matrix.mul_apply, h]

theorem swapRows_involutive {m n : ℕ} {α : Type} (M : Matrix (Fin m) (Fin n) α) (a b : Fin m) :
    swapRows (swapRows M a b) a b = M := by
  ext i j
  by_cases h1 : i = a
  · subst h1
    by_cases h2 : b = i <;> simp [swapRows, h2]
  · by_cases h2 : i = b
    · subst h2; simp [swapRows, h1, Ne.symm h1]
    · simp [swapRows, h1, h2]

theorem addRowTo_involutive {m n : ℕ} (M : Matrix (Fin m) (Fin n) (ZMod 2)) (t s : Fin m)
    (h : t ≠ s) : addRowTo (addRowTo M t s) t s = M := by
  ext i j
  by_cases hi : i = t
  · subst hi
    simp [addRowTo, Ne.symm h, add_assoc, zmod2_add_self]
  · simp [addRowTo, hi]

theorem swapRows_unit {m : ℕ} {T U : Matrix (Fin m) (Fin m) (ZMod 2)} (hU : U * T = 1)
    (a b : Fin m) : ∃ V, V * swapRows T a b = 1 := by
  refine ⟨U * swapRows 1 a b, ?_⟩
  have h1 : swapRows T a b = swapRows (1 : Matrix (Fin m) (Fin m) (ZMod 2)) a b * T := by
    rw [swapRows_mul, Matrix.one_mul]
  have h2 : swapRows (1 : Matrix (Fin m) (Fin m) (ZMod 2)) a b *
      swapRows (1 : Matrix (Fin m) (Fin m) (ZMod 2)) a b = 1 := by
    rw [swapRows_mul]
    rw [Matrix.one_mul, swapRows_involutive]
  rw [h1, ← Matrix.mul_assoc, Matrix.mul_assoc U _ _]
  rw [h2]
  rw [Matrix.mul_one, hU]

theorem addRowTo_unit {m : ℕ} {T U : Matrix (Fin m) (Fin m) (ZMod 2)} (hU : U * T = 1)
    (t s : Fin m) (hts : t ≠ s) : ∃ V, V * addRowTo T t s = 1 := by
  refine ⟨U * addRowTo 1 t s, ?_⟩
  have h1 : addRowTo T t s = addRowTo (1 : Matrix (Fin m) (Fin m) (ZMod 2)) t s * T := by
    rw [addRowTo_mul, Matrix.one_mul]
  have h2 : addRowTo (1 : Matrix (Fin m) (Fin m) (ZMod 2)) t s *
      addRowTo (1 : Matrix (Fin m) (Fin m) (ZMod 2)) t s = 1 := by
    rw [addRowTo_mul]
    rw [Matrix.one_mul, addRowTo_involutive _ _ _ hts]
  rw [h1, ← Matrix.mul_assoc, Matrix.mul_assoc U _ _]
  rw [h2]
  rw [Matrix.mul_one, hU]

/-! ### Search lemmas for the pivot selection -/

theorem findIdx?_some_spec {α : Type} (p : α → Bool) (l : List α) (k : ℕ)
    (h : l.findIdx? p = some k) :
    ∃ hk : k < l.length, p (l.get ⟨k, hk⟩) = true ∧
      ∀ (j : ℕ) (hj : j < l.length), j < k → p (l.get ⟨j, hj⟩) = false := by
  induction l generalizing k with
  | nil => simp at h
  | cons x xs ih =>
    rw [List.findIdx?_cons] at h
    by_cases hx : p x
    · rw [if_pos hx] at h
      cases h
      exact ⟨Nat.succ_pos _, by simpa using hx, fun j hj hjk => absurd hjk (Nat.not_lt_zero j)⟩
    · rw [if_neg hx] at h
      rw [List.findIdx?_start_succ] at h
      rcases Option.map_eq_some'.mp h with ⟨k', hk', rfl⟩
      rcases ih k' hk' with ⟨hlt, hp, hmin⟩
      refine ⟨Nat.succ_lt_succ hlt, by simpa using hp, ?_⟩
      intro j hj hjk
      match j with
      | 0 => simpa using Bool.of_not_eq_true hx
      | j + 1 =>
        have : j < k' := Nat.lt_of_succ_lt_succ hjk
        simpa using hmin j (Nat.lt_of_succ_lt_succ hj) this

theorem findIdx?_none_spec {α : Type} (p : α → Bool) (l : List α)
    (h : l.findIdx? p = none) :
    ∀ (j : ℕ) (hj : j < l.length), p (l.get ⟨j, hj⟩) = false := by
  intro j hj
  have := List.findIdx?_eq_none_iff.mp h (l.get ⟨j, hj⟩) (l.get_mem _ _)
  exact this

theorem sliceArgmax_spec {m n : ℕ} (M : Matrix (Fin m) (Fin n) (ZMod 2)) (pr : ℕ)
    (col : Fin n) (hpr : pr < m) :
    (sliceArgmax M pr col = 0 ∧ ∀ r : Fin m, pr ≤ (r : ℕ) → M r col ≠ 1) ∨
      (pr + sliceArgmax M pr col < m ∧ getEntry M (pr + sliceArgmax M pr col) col = 1 ∧
        ∀ r : Fin m, pr ≤ (r : ℕ) → (r : ℕ) < pr + sliceArgmax M pr col → M r col ≠ 1) := by
  unfold sliceArgmax
  cases hfind : (List.range (m - pr)).findIdx? fun k => decide (getEntry M (pr + k) col = 1) with
  | none =>
    left
    refine ⟨rfl, fun r hr => ?_⟩
    have hlt : (r : ℕ) - pr < (List.range (m - pr)).length := by
      simp only [List.length_range]; omega
    have := findIdx?_none_spec _ _ hfind ((r : ℕ) - pr) hlt
    rw [List.get_range] at this
    have hre : pr + ((r : ℕ) - pr) = (r : ℕ) := by omega
    rw [hre] at this
    intro hone
    rw [show getEntry M (r : ℕ) col = M r col from by simp [getEntry, r.isLt]] at this
    simp [hone] at this
  | some k =>
    right
    rcases findIdx?_some_spec _ _ _ hfind with ⟨hk, hp, hmin⟩
    rw [List.length_range] at hk
    rw [List.get_range] at hp
    have hkm : pr + k < m := by omega
    simp only [Option.getD_some]
    refine ⟨hkm, by simpa using hp, fun r hr hrk => ?_⟩
    have hlt : (r : ℕ) - pr < (List.range (m - pr)).length := by
      simp only [List.length_range]; omega
    have := hmin ((r : ℕ) - pr) hlt (by omega)
    rw [List.get_range] at this
    have hre : pr + ((r : ℕ) - pr) = (r : ℕ) := by omega
    rw [hre] at this
    intro hone
    rw [show getEntry M (r : ℕ) col = M r col from by simp [getEntry, r.isLt]] at this
    simp [hone] at this

/-! ### Characterization of the swap phase -/

theorem swapPhase_spec {m n : ℕ} (S : EchState m n) (pr : Fin m) (col : Fin n) :
    ∃ s : Fin m, pr ≤ s ∧
      swapPhase S pr col =
        { S with mat := swapRows S.mat s pr, transform := swapRows S.transform s pr } ∧
      (∀ r : Fin m, pr ≤ r → (r : ℕ) < (s : ℕ) → S.mat r col ≠ 1) ∧
      (S.mat s col = 1 ∨ (s = pr ∧ ∀ r : Fin m, pr ≤ r → S.mat r col ≠ 1)) := by
  unfold swapPhase
  by_cases hone : S.mat pr col = 1
  · refine ⟨pr, le_refl _, ?_, ?_, Or.inl hone⟩
    · rw [if_neg (by simpa using hone)]
      rw [swapRows_self, swapRows_self]
    · intro r h1 h2
      exact absurd (lt_of_le_of_lt h1 h2) (lt_irrefl _)
  · rw [if_pos (by simpa using hone)]
    rcases sliceArgmax_spec S.mat pr col pr.isLt with ⟨hz, hall⟩ | ⟨hlt, hent, hmin⟩
    · refine ⟨pr, le_refl _, ?_, ?_, Or.inr ⟨rfl, fun r hr => hall r hr⟩⟩
      · have hsi : (pr : ℕ) + sliceArgmax S.mat pr col < m := by
          rw [hz]; simpa using pr.isLt
        rw [dif_pos hsi]
        have : (⟨(pr : ℕ) + sliceArgmax S.mat pr col, hsi⟩ : Fin m) = pr := by
          apply Fin.ext; simp [hz]
        rw [this, if_neg hone]
        rw [swapRows_self, swapRows_self]
      · intro r h1 h2
        exact absurd (lt_of_le_of_lt h1 h2) (lt_irrefl _)
    · set s : Fin m := ⟨(pr : ℕ) + sliceArgmax S.mat pr col, hlt⟩ with hs
      have hsone : S.mat s col = 1 := by
        have : getEntry S.mat ((pr : ℕ) + sliceArgmax S.mat pr col) col = S.mat s col := by
          simp [getEntry, hlt, hs]
        rw [← this]; exact hent
      refine ⟨s, by rw [hs]; exact Fin.mk_le_of_le_val (Nat.le_add_right _ _), ?_, ?_,
        Or.inl hsone⟩
      · rw [dif_pos hlt, if_pos hsone]
      · intro r h1 h2
        exact hmin r h1 h2

/-! ### Characterization of the elimination fold -/

theorem elimRow_pivotRow {m n : ℕ} (pr : Fin m) (col : Fin n) (S : EchState m n) (j : ℕ) :
    (elimRow pr col S j).pivotRow = S.pivotRow := by
  unfold elimRow; split_ifs <;> rfl

theorem elimRow_pivotCols {m n : ℕ} (pr : Fin m) (col : Fin n) (S : EchState m n) (j : ℕ) :
    (elimRow pr col S j).pivotCols = S.pivotCols := by
  unfold elimRow; split_ifs <;> rfl

theorem elimRow_teq {m n : ℕ} {pr : Fin m} {col : Fin n} {S : EchState m n} {j : ℕ}
    {A : Matrix (Fin m) (Fin n) (ZMod 2)} (h : S.transform * A = S.mat) :
    (elimRow pr col S j).transform * A = (elimRow pr col S j).mat := by
  unfold elimRow; split_ifs with h1 h2
  · simp only
    rw [addRowTo_mul, h]
  · exact h
  · exact h

theorem elimRow_tunit {m n : ℕ} {pr : Fin m} {col : Fin n} {S : EchState m n} {j : ℕ}
    (h : ∃ U, U * S.transform = 1) : ∃ U, U * (elimRow pr col S j).transform = 1 := by
  obtain ⟨U, hU⟩ := h
  unfold elimRow; split_ifs with h1 h2
  · exact addRowTo_unit hU _ _ (Fin.ne_of_val_ne h2.2)
  · exact ⟨U, hU⟩
  · exact ⟨U, hU⟩

theorem elimFold_pivotRow {m n : ℕ} (pr : Fin m) (col : Fin n) (L : List ℕ)
    (S : EchState m n) : (L.foldl (elimRow pr col) S).pivotRow = S.pivotRow := by
  induction L generalizing S with
  | nil => rfl
  | cons a L ih =>
    simp only [List.foldl_cons]
    rw [ih, elimRow_pivotRow]

theorem elimFold_pivotCols {m n : ℕ} (pr : Fin m) (col : Fin n) (L : List ℕ)
    (S : EchState m n) : (L.foldl (elimRow pr col) S).pivotCols = S.pivotCols := by
  induction L generalizing S with
  | nil => rfl
  | cons a L ih =>
    simp only [List.foldl_cons]
    rw [ih, elimRow_pivotCols]

theorem elimFold_teq {m n : ℕ} {pr : Fin m} {col : Fin n} (L : List ℕ) {S : EchState m n}
    {A : Matrix (Fin m) (Fin n) (ZMod 2)} (h : S.transform * A = S.mat) :
    (L.foldl (elimRow pr col) S).transform * A = (L.foldl (elimRow pr col) S).mat := by
  induction L generalizing S with
  | nil => exact h
  | cons a L ih =>
    simp only [List.foldl_cons]
    exact ih (elimRow_teq h)

theorem elimFold_tunit {m n : ℕ} {pr : Fin m} {col : Fin n} (L : List ℕ) {S : EchState m n}
    (h : ∃ U, U * S.transform = 1) : ∃ U, U * (L.foldl (elimRow pr col) S).transform = 1 := by
  induction L generalizing S with
  | nil => exact h
  | cons a L ih =>
    simp only [List.foldl_cons]
    exact ih (elimRow_tunit h)

theorem elimRow_mat_of_ne {m n : ℕ} (pr : Fin m) (col : Fin n) (S : EchState m n) (j : ℕ)
    (r : Fin m) (hr : (r : ℕ) ≠ j) : (elimRow pr col S j).mat r = S.mat r := by
  unfold elimRow; split_ifs with h1 h2
  · simp only
    exact addRowTo_other _ _ _ _ (fun he => hr (by rw [he]))
  · rfl
  · rfl

theorem elimFold_mat {m n : ℕ} (pr : Fin m) (col : Fin n) (L : List ℕ) (S : EchState m n)
    (i : Fin m) (hnd : L.Nodup) (hpr : (pr : ℕ) ∉ L) :
    (L.foldl (elimRow pr col) S).mat i =
      if (i : ℕ) ∈ L ∧ S.mat i col ≠ 0 then S.mat i + S.mat pr else S.mat i := by
  induction L generalizing S with
  | nil => simp
  | cons a L ih =>
    have hnd' : L.Nodup := (List.nodup_cons.mp hnd).2
    have ha : a ∉ L := (List.nodup_cons.mp hnd).1
    have hpr' : (pr : ℕ) ∉ L := fun h => hpr (List.mem_cons_of_mem _ h)
    have hapr : a ≠ (pr : ℕ) := fun h => hpr (h ▸ List.mem_cons_self _ _)
    simp only [List.foldl_cons]
    have hmatpr : (elimRow pr col S a).mat pr = S.mat pr :=
      elimRow_mat_of_ne pr col S a pr (Ne.symm hapr)
    by_cases hia : (i : ℕ) = a
    · have hinL : (i : ℕ) ∉ L := fun h => ha (hia ▸ h)
      rw [ih _ hnd' hpr']
      rw [if_neg (fun hcontra => hinL hcontra.1)]
      have hieq : (⟨a, hia ▸ i.isLt⟩ : Fin m) = i := by
        apply Fin.ext; simp [hia]
      have hmem : (i : ℕ) ∈ a :: L := by rw [hia]; exact List.mem_cons_self _ _
      unfold elimRow
      rw [dif_pos (hia ▸ i.isLt)]
      by_cases hcond : S.mat ⟨a, hia ▸ i.isLt⟩ col ≠ 0 ∧ a ≠ (pr : ℕ)
      · rw [if_pos hcond]
        simp only
        rw [hieq] at hcond
        rw [if_pos ⟨hmem, hcond.1⟩]
        have : (⟨a, hia ▸ i.isLt⟩ : Fin m) = i := hieq
        rw [this, addRowTo_target]
      · rw [if_neg hcond]
        rw [hieq] at hcond
        have : ¬((i : ℕ) ∈ a :: L ∧ S.mat i col ≠ 0) := by
          intro hcontra
          exact hcond ⟨hcontra.2, hapr⟩
        rw [if_neg this]
    · have hrow : (elimRow pr col S a).mat i = S.mat i := elimRow_mat_of_ne pr col S a i hia
      rw [ih _ hnd' hpr', hrow, hmatpr]
      have hmem : ((i : ℕ) ∈ a :: L) ↔ ((i : ℕ) ∈ L) := by
        simp [List.mem_cons, hia]
      by_cases hl : (i : ℕ) ∈ L ∧ S.mat i col ≠ 0
      · rw [if_pos hl, if_pos ⟨hmem.mpr hl.1, hl.2⟩]
      · rw [if_neg hl]
        rw [if_neg (fun hcontra => hl ⟨hmem.mp hcontra.1, hcontra.2⟩)]

theorem elimRange_nodup (m : ℕ) (full : Bool) (pr : ℕ) : (elimRange m full pr).Nodup := by
  unfold elimRange
  split_ifs
  · exact (List.nodup_range m).filter _
  · exact List.nodup_range' _ _

theorem elimRange_not_mem_pr (m : ℕ) (full : Bool) (pr : ℕ) : pr ∉ elimRange m full pr := by
  unfold elimRange
  split_ifs
  · intro h
    have := List.of_mem_filter h
    simp at this
  · intro h
    have := List.mem_range'_1.mp h
    omega

theorem mem_elimRange_false {m pr : ℕ} (hpr : pr < m) (a : ℕ) :
    a ∈ elimRange m false pr ↔ pr < a ∧ a < m := by
  unfold elimRange
  simp only [if_neg (Bool.false_ne_true)]
  rw [List.mem_range'_1]
  omega

theorem mem_elimRange_true {m pr : ℕ} (a : ℕ) :
    a ∈ elimRange m true pr ↔ a < m ∧ a ≠ pr := by
  unfold elimRange
  rw [if_pos rfl]
  rw [List.mem_filter]
  simp [List.mem_range]

/-! ### The elimination invariant is preserved by each phase -/

theorem echInv_swap {m n : ℕ} {A : Matrix (Fin m) (Fin n) (ZMod 2)} {full : Bool} {c : ℕ}
    {S : EchState m n} (hInv : EchInv A full c S) (pr s : Fin m)
    (hpr : (pr : ℕ) = S.pivotRow) (hps : pr ≤ s) :
    EchInv A full c
      { S with mat := swapRows S.mat s pr, transform := swapRows S.transform s pr } := by
  obtain ⟨teq, tunit, prle, plen, plt, psorted, pone, pzero, pzeroAbove, leftz, tailz⟩ := hInv
  have hrow : ∀ r : Fin m, (swapRows S.mat s pr) r =
      (if r = s then S.mat pr else if r = pr then S.mat s else S.mat r) := by
    intro r
    by_cases h1 : r = s
    · subst h1; rw [if_pos rfl, swapRows_fst]
    · rw [if_neg h1]
      by_cases h2 : r = pr
      · subst h2; rw [if_pos rfl, swapRows_snd]
      · rw [if_neg h2, swapRows_other _ _ _ _ h1 h2]
  have hilt : ∀ i : Fin S.pivotCols.length, (i : ℕ) < (pr : ℕ) := by
    intro i
    rw [hpr, ← plen]
    exact i.isLt
  have hpsv : (pr : ℕ) ≤ (s : ℕ) := hps
  constructor
  · rw [swapRows_mul, teq]
  · obtain ⟨U, hU⟩ := tunit
    exact swapRows_unit hU s pr
  · exact prle
  · exact plen
  · exact plt
  · exact psorted
  · intro i hm
    dsimp only
    rw [hrow]
    split_ifs with h1 h2
    · exact absurd (congrArg Fin.val h1) (Nat.ne_of_lt (lt_of_lt_of_le (hilt i) hpsv))
    · exact absurd (congrArg Fin.val h2) (Nat.ne_of_lt (hilt i))
    · exact pone i hm
  · intro i r hir
    dsimp only
    rw [hrow]
    split_ifs with h1 h2
    · exact pzero i pr (hilt i)
    · exact pzero i s (lt_of_lt_of_le (hilt i) hpsv)
    · exact pzero i r hir
  · intro hf i r hri
    dsimp only
    rw [hrow]
    split_ifs with h1 h2
    · exact pzeroAbove hf i pr (Nat.ne_of_gt (hilt i))
    · exact pzeroAbove hf i s (Nat.ne_of_gt (lt_of_lt_of_le (hilt i) hpsv))
    · exact pzeroAbove hf i r hri
  · intro i hm j hj
    dsimp only
    rw [hrow]
    split_ifs with h1 h2
    · exact absurd (congrArg Fin.val h1) (Nat.ne_of_lt (lt_of_lt_of_le (hilt i) hpsv))
    · exact absurd (congrArg Fin.val h2) (Nat.ne_of_lt (hilt i))
    · exact leftz i hm j hj
  · intro r hr j hj
    dsimp only
    rw [hrow]
    split_ifs with h1 h2
    · exact tailz pr (le_of_eq hpr.symm) j hj
    · exact tailz s (le_trans (le_of_eq hpr.symm) hpsv) j hj
    · exact tailz r hr j hj

theorem echInv_bump {m n : ℕ} {A : Matrix (Fin m) (Fin n) (ZMod 2)} {full : Bool}
    {S : EchState m n} (col : Fin n) (hInv : EchInv A full (col : ℕ) S)
    (hall : ∀ r : Fin m, S.pivotRow ≤ (r : ℕ) → S.mat r col = 0) :
    EchInv A full ((col : ℕ) + 1) S := by
  obtain ⟨teq, tunit, prle, plen, plt, psorted, pone, pzero, pzeroAbove, leftz, tailz⟩ := hInv
  refine ⟨teq, tunit, prle, plen, fun p hp => Nat.lt_succ_of_lt (plt p hp), psorted, pone,
    pzero, pzeroAbove, leftz, ?_⟩
  intro r hr j hj
  by_cases hjc : (j : ℕ) < (col : ℕ)
  · exact tailz r hr j hjc
  · have : j = col := Fin.ext (by omega)
    subst this
    exact hall r hr

theorem echInv_break {m n : ℕ} {A : Matrix (Fin m) (Fin n) (ZMod 2)} {full : Bool}
    {S : EchState m n} (col : Fin n) (hInv : EchInv A full (col : ℕ) S)
    (hpr : ¬S.pivotRow < m) : EchInv A full ((col : ℕ) + 1) S :=
  echInv_bump col hInv fun r hr => absurd (lt_of_le_of_lt hr r.isLt) (by omega)

theorem echInv_elimPhase {m n : ℕ} {A : Matrix (Fin m) (Fin n) (ZMod 2)} {full : Bool}
    {S : EchState m n} (col : Fin n) (hInv : EchInv A full (col : ℕ) S)
    (hprm : S.pivotRow < m)
    (hone : S.mat ⟨S.pivotRow, hprm⟩ col = 1) :
    EchInv A full ((col : ℕ) + 1) (elimPhase full S ⟨S.pivotRow, hprm⟩ col) := by
  obtain ⟨teq, tunit, prle, plen, plt, psorted, pone, pzero, pzeroAbove, leftz, tailz⟩ := hInv
  set pr : Fin m := ⟨S.pivotRow, hprm⟩ with hprdef
  have hplen_pr : S.pivotCols.length = (pr : ℕ) := plen
  unfold elimPhase
  rw [if_pos (show S.mat pr col ≠ 0 by rw [hone]; exact one_ne_zero)]
  set L := elimRange m full (pr : ℕ) with hLdef
  have hnd : L.Nodup := elimRange_nodup m full (pr : ℕ)
  have hprL : (pr : ℕ) ∉ L := elimRange_not_mem_pr m full (pr : ℕ)
  set S2 := L.foldl (elimRow pr col) S with hS2def
  have hmat : ∀ i : Fin m, S2.mat i =
      if (i : ℕ) ∈ L ∧ S.mat i col ≠ 0 then S.mat i + S.mat pr else S.mat i :=
    fun i => elimFold_mat pr col L S i hnd hprL
  have hmemGT : ∀ a : Fin m, (pr : ℕ) < (a : ℕ) → (a : ℕ) ∈ L := by
    intro a ha
    cases full
    · exact (mem_elimRange_false hprm _).mpr ⟨ha, a.isLt⟩
    · exact (mem_elimRange_true _).mpr ⟨a.isLt, Nat.ne_of_gt ha⟩
  have hmemF : full = true → ∀ a : Fin m, (a : ℕ) ≠ (pr : ℕ) → (a : ℕ) ∈ L := by
    intro hf a ha
    rw [hLdef, hf]
    exact (mem_elimRange_true _).mpr ⟨a.isLt, ha⟩
  have hS2col : ∀ r : Fin m, (r : ℕ) ∈ L → S2.mat r col = 0 := by
    intro r hr
    rw [hmat]
    by_cases hc0 : S.mat r col ≠ 0
    · rw [if_pos ⟨hr, hc0⟩]
      show S.mat r col + S.mat pr col = 0
      rw [zmod2_eq_one_of_ne_zero hc0, hone]
      decide
    · rw [if_neg fun hcon => hc0 hcon.2]
      exact not_not.mp hc0
  have hS2pr : S2.mat pr = S.mat pr := by
    rw [hmat]
    rw [if_neg fun hcon => hprL hcon.1]
  have hrowF : ∀ r : Fin m, S2.mat r = S.mat r ∨
      (S2.mat r = S.mat r + S.mat pr ∧ (r : ℕ) ∈ L) := by
    intro r
    rw [hmat]
    by_cases hc : (r : ℕ) ∈ L ∧ S.mat r col ≠ 0
    · right; rw [if_pos hc]; exact ⟨rfl, hc.1⟩
    · left; rw [if_neg hc]
  show EchInv A full ((col : ℕ) + 1)
    { mat := S2.mat, transform := S2.transform,
      pivotRow := (pr : ℕ) + 1, pivotCols := S.pivotCols ++ [col] }
  have hlen' : (S.pivotCols ++ [col]).length = S.pivotCols.length + 1 := by simp
  have hgetlt : ∀ (i : Fin (S.pivotCols ++ [col]).length) (hi : (i : ℕ) < S.pivotCols.length),
      (S.pivotCols ++ [col]).get i = S.pivotCols.get ⟨i, hi⟩ := by
    intro i hi
    exact List.get_append_left _ _ hi
  have hgetlast : ∀ (i : Fin (S.pivotCols ++ [col]).length), (i : ℕ) = S.pivotCols.length →
      (S.pivotCols ++ [col]).get i = col := by
    intro i hi
    rw [List.get_eq_getElem]
    exact List.getElem_concat_length _ _ _ hi _
  constructor
  · exact elimFold_teq L teq
  · exact elimFold_tunit L tunit
  · exact Nat.succ_le_of_lt hprm
  · dsimp only
    rw [hlen', hplen_pr]
  · intro p hp
    rcases List.mem_append.mp hp with hp | hp
    · exact Nat.lt_succ_of_lt (plt p hp)
    · rw [List.mem_singleton.mp hp]
      exact Nat.lt_succ_self _
  · dsimp only
    rw [List.pairwise_append]
    refine ⟨psorted, List.pairwise_singleton _ _, ?_⟩
    intro p hp q hq
    rw [List.mem_singleton.mp hq]
    exact plt p hp
  · intro i hm
    dsimp only at i hm ⊢
    by_cases hi : (i : ℕ) < S.pivotCols.length
    · rw [hgetlt i hi]
      rcases hrowF ⟨i, hm⟩ with h | ⟨h, _⟩
      · rw [h]
        exact pone ⟨i, hi⟩ hm
      · rw [h, Pi.add_apply]
        rw [pone ⟨i, hi⟩ hm, pzero ⟨i, hi⟩ pr (by rw [← hplen_pr]; exact hi)]
        decide
    · have hieq : (i : ℕ) = S.pivotCols.length := by
        have h2 := i.isLt
        omega
      rw [hgetlast i hieq]
      have hreq : (⟨(i : ℕ), hm⟩ : Fin m) = pr := by
        apply Fin.ext
        rw [hieq, hplen_pr]
      rw [hreq, hS2pr]
      exact hone
  · intro i r hir
    dsimp only at i hir ⊢
    by_cases hi : (i : ℕ) < S.pivotCols.length
    · rw [hgetlt i hi]
      rcases hrowF r with h | ⟨h, _⟩
      · rw [h]
        exact pzero ⟨i, hi⟩ r hir
      · rw [h, Pi.add_apply]
        rw [pzero ⟨i, hi⟩ r hir, pzero ⟨i, hi⟩ pr (by rw [← hplen_pr]; exact hi)]
        decide
    · have hieq : (i : ℕ) = S.pivotCols.length := by
        have h2 := i.isLt
        omega
      rw [hgetlast i hieq]
      refine hS2col r (hmemGT r ?_)
      rw [← hplen_pr, ← hieq]
      exact hir
  · intro hf i r hri
    dsimp only at i hri ⊢
    by_cases hi : (i : ℕ) < S.pivotCols.length
    · rw [hgetlt i hi]
      have hprne : (pr : ℕ) ≠ (i : ℕ) := by
        rw [← hplen_pr]
        exact Nat.ne_of_gt hi
      rcases hrowF r with h | ⟨h, _⟩
      · rw [h]
        exact pzeroAbove hf ⟨i, hi⟩ r hri
      · rw [h, Pi.add_apply]
        rw [pzeroAbove hf ⟨i, hi⟩ r hri, pzeroAbove hf ⟨i, hi⟩ pr hprne]
        decide
    · have hieq : (i : ℕ) = S.pivotCols.length := by
        have h2 := i.isLt
        omega
      rw [hgetlast i hieq]
      refine hS2col r (hmemF hf r ?_)
      rw [← hplen_pr, ← hieq]
      exact hri
  · intro i hm j hj
    dsimp only at i hm hj ⊢
    by_cases hi : (i : ℕ) < S.pivotCols.length
    · rw [hgetlt i hi] at hj
      rcases hrowF ⟨i, hm⟩ with h | ⟨h, _⟩
      · rw [h]
        exact leftz ⟨i, hi⟩ hm j hj
      · rw [h, Pi.add_apply]
        have hjc : (j : ℕ) < (col : ℕ) :=
          lt_trans hj (plt _ (List.get_mem _ _ _))
        rw [leftz ⟨i, hi⟩ hm j hj, tailz pr (le_refl _) j hjc]
        decide
    · have hieq : (i : ℕ) = S.pivotCols.length := by
        have h2 := i.isLt
        omega
      rw [hgetlast i hieq] at hj
      have hreq : (⟨(i : ℕ), hm⟩ : Fin m) = pr := by
        apply Fin.ext
        rw [hieq, hplen_pr]
      rw [hreq, hS2pr]
      exact tailz pr (le_refl _) j hj
  · intro r hr j hj
    dsimp only at hr hj ⊢
    have hrgt : (pr : ℕ) < (r : ℕ) := hr
    by_cases hjc : (j : ℕ) < (col : ℕ)
    · rcases hrowF r with h | ⟨h, _⟩
      · rw [h]
        exact tailz r (le_of_lt hrgt) j hjc
      · rw [h, Pi.add_apply]
        rw [tailz r (le_of_lt hrgt) j hjc, tailz pr (le_refl _) j hjc]
        decide
    · have hjeq : j = col := Fin.ext (by omega)
      rw [hjeq]
      exact hS2col r (hmemGT r hrgt)

theorem echInv_colStep {m n : ℕ} {A : Matrix (Fin m) (Fin n) (ZMod 2)} {full : Bool}
    {S : EchState m n} (col : Fin n) (hInv : EchInv A full (col : ℕ) S) :
    EchInv A full ((col : ℕ) + 1) (colStep full S col) := by
  unfold colStep
  by_cases hpr : S.pivotRow < m
  · rw [dif_pos hpr]
    rcases swapPhase_spec S ⟨S.pivotRow, hpr⟩ col with ⟨s, hps, heq, hfirst, hcase⟩
    rw [heq]
    have hInv1 : EchInv A full (col : ℕ)
        { S with mat := swapRows S.mat s ⟨S.pivotRow, hpr⟩,
                 transform := swapRows S.transform s ⟨S.pivotRow, hpr⟩ } :=
      echInv_swap hInv ⟨S.pivotRow, hpr⟩ s rfl hps
    by_cases h1 : swapRows S.mat s ⟨S.pivotRow, hpr⟩ ⟨S.pivotRow, hpr⟩ col = 1
    · exact echInv_elimPhase col hInv1 hpr h1
    · rcases hcase with hsone | ⟨hspr, hall⟩
      · exact absurd (by rw [swapRows_snd]; exact hsone) h1
      · subst hspr
        rw [swapRows_self, swapRows_self]
        show EchInv A full ((col : ℕ) + 1) (elimPhase full S ⟨S.pivotRow, hpr⟩ col)
        unfold elimPhase
        rw [if_neg (show ¬S.mat ⟨S.pivotRow, hpr⟩ col ≠ 0 from fun hcon =>
          hcon (zmod2_eq_zero_of_ne_one (hall ⟨S.pivotRow, hpr⟩ (le_refl _))))]
        exact echInv_bump col hInv fun r hr => zmod2_eq_zero_of_ne_one (hall r hr)
  · rw [dif_neg hpr]
    exact echInv_break col hInv hpr

theorem echInv_take {m n : ℕ} (A : Matrix (Fin m) (Fin n) (ZMod 2)) (full : Bool)
    (k : ℕ) (hk : k ≤ n) :
    EchInv A full k (((List.finRange n).take k).foldl (colStep full) ⟨A, 1, 0, []⟩) := by
  induction k with
  | zero =>
    refine ⟨Matrix.one_mul A, ⟨1, Matrix.one_mul 1⟩, Nat.zero_le m, rfl, ?_, ?_, ?_, ?_, ?_, ?_, ?_⟩
    · intro p hp
      exact absurd hp (List.not_mem_nil p)
    · exact List.Pairwise.nil
    · intro i
      exact absurd i.isLt (by simp)
    · intro i
      exact absurd i.isLt (by simp)
    · intro hf i
      exact absurd i.isLt (by simp)
    · intro i
      exact absurd i.isLt (by simp)
    · intro r hr j hj
      exact absurd hj (Nat.not_lt_zero _)
  | succ k ih =>
    have hkn : k < n := hk
    have htake : (List.finRange n).take (k + 1) =
        (List.finRange n).take k ++ [⟨k, hkn⟩] := by
      rw [List.take_succ]
      congr 1
      rw [List.getElem?_eq_getElem (by simpa using hkn)]
      simp only [Option.toList_some, List.cons.injEq, and_true]
      apply Fin.ext
      simpa using List.get_finRange _
    rw [htake, List.foldl_append]
    simp only [List.foldl_cons, List.foldl_nil]
    exact echInv_colStep (⟨k, hkn⟩ : Fin n) (ih (le_of_lt hkn))

theorem rowEchelon_inv {m n : ℕ} (full : Bool) (A : Matrix (Fin m) (Fin n) (ZMod 2)) :
    EchInv A full n (rowEchelon full A) := by
  have h := echInv_take A full n (le_refl n)
  rw [List.take_of_length_le (by simp)] at h
  exact h

/-! ### Claim C2 -/

/-- Claim C2: for every binary matrix `A`, `row_echelon(A)` (with the default
`full=False`) returns `(R, r, T, P)` such that `T @ A ≡ R (mod 2)`, the
returned rank equals the number of pivots found (`len(P) == r`), and in `R`
every nonzero row is one of the first `r` rows and has its entries only at or
after its pivot column: rows at or beyond `r` vanish, and row `i < r` vanishes
strictly left of `P[i]` while holding a `1` at `P[i]`. -/
theorem C2_row_echelon_correct {m n : ℕ} (A : Matrix (Fin m) (Fin n) (ZMod 2)) :
    (rowEchelon false A).transform * A = (rowEchelon false A).mat ∧
    (rowEchelon false A).pivotCols.length = (rowEchelon false A).pivotRow ∧
    (∀ r : Fin m, (rowEchelon false A).pivotRow ≤ (r : ℕ) → ∀ j : Fin n,
      (rowEchelon false A).mat r j = 0) ∧
    (∀ (i : Fin (rowEchelon false A).pivotCols.length) (hm : (i : ℕ) < m),
      (rowEchelon false A).mat ⟨i, hm⟩ ((rowEchelon false A).pivotCols.get i) = 1 ∧
      ∀ j : Fin n, (j : ℕ) < ((rowEchelon false A).pivotCols.get i : ℕ) →
        (rowEchelon false A).mat ⟨i, hm⟩ j = 0) := by
  have inv := rowEchelon_inv false A
  exact ⟨inv.teq, inv.plen, fun r hr j => inv.tailz r hr j j.isLt,
    fun i hm => ⟨inv.pone i hm, fun j hj => inv.leftz i hm j hj⟩⟩

/-- Witness for C2 at the rank-one matrix `[[1, 1], [1, 1]]`: its echelon form
is `[[1, 1], [0, 0]]` with rank 1 and pivot list `[0]`. -/
theorem C2_row_echelon_correct_witness :
    (rowEchelon false exSquare).pivotRow ≤ ((1 : Fin 2) : ℕ) ∧
    (rowEchelon false exSquare).mat (1 : Fin 2) (0 : Fin 2) = 0 ∧
    (rowEchelon false exSquare).mat ⟨(0 : ℕ), by decide⟩
      ((rowEchelon false exSquare).pivotCols.get ⟨0, by decide⟩) = 1 := by
  have hle : (rowEchelon false exSquare).pivotRow ≤ ((1 : Fin 2) : ℕ) := by decide
  exact ⟨hle, (C2_row_echelon_correct exSquare).2.2.1 1 hle 0,
    ((C2_row_echelon_correct exSquare).2.2.2 ⟨0, by decide⟩ (by decide)).1⟩

/-! ### Claim C6 -/

/-- Claim C6: in one column iteration of `row_echelon`, the pivot is chosen by
swapping up the first row at or below the current pivot row that holds a `1`
in the column; afterwards the pivot row is XOR-added exactly to the rows with
a `1` in the pivot column that lie strictly below the pivot row when
`full = false`, and to every other such row when `full = true`.  When no row
at or below the pivot row holds a `1`, the column yields no pivot and the
state is unchanged. -/
theorem C6_colStep_behavior {m n : ℕ} (full : Bool) (S : EchState m n) (col : Fin n)
    (hpr : S.pivotRow < m) :
    (∀ s : Fin m, S.pivotRow ≤ (s : ℕ) → S.mat s col = 1 →
      (∀ r : Fin m, S.pivotRow ≤ (r : ℕ) → (r : ℕ) < (s : ℕ) → S.mat r col ≠ 1) →
      (colStep full S col).mat = Matrix.of (fun (i : Fin m) (j : Fin n) =>
          if (if full then (i : ℕ) ≠ S.pivotRow else S.pivotRow < (i : ℕ)) ∧
              swapRows S.mat s ⟨S.pivotRow, hpr⟩ i col = 1
          then swapRows S.mat s ⟨S.pivotRow, hpr⟩ i j +
               swapRows S.mat s ⟨S.pivotRow, hpr⟩ ⟨S.pivotRow, hpr⟩ j
          else swapRows S.mat s ⟨S.pivotRow, hpr⟩ i j) ∧
        (colStep full S col).pivotRow = S.pivotRow + 1 ∧
        (colStep full S col).pivotCols = S.pivotCols ++ [col]) ∧
    ((∀ r : Fin m, S.pivotRow ≤ (r : ℕ) → S.mat r col ≠ 1) →
      colStep full S col = S) := by
  constructor
  · intro s hs1 hs2 hs3
    unfold colStep
    rw [dif_pos hpr]
    rcases swapPhase_spec S ⟨S.pivotRow, hpr⟩ col with ⟨s', hps', heq, hfirst', hcase'⟩
    have hss : s' = s := by
      rcases lt_trichotomy (s' : ℕ) (s : ℕ) with h | h | h
      · rcases hcase' with h1 | ⟨h1, hall⟩
        · exact absurd h1 (hs3 s' hps' h)
        · exact absurd hs2 (hall s hs1)
      · exact Fin.ext h
      · exact absurd hs2 (hfirst' s hs1 h)
    rw [hss] at heq
    rw [heq]
    set pr : Fin m := ⟨S.pivotRow, hpr⟩ with hprdef
    set S1 : EchState m n :=
      { S with mat := swapRows S.mat s pr, transform := swapRows S.transform s pr } with hS1
    have hM1 : S1.mat pr col = 1 := by
      show swapRows S.mat s pr pr col = 1
      rw [swapRows_snd]
      exact hs2
    unfold elimPhase
    rw [if_pos (show S1.mat pr col ≠ 0 from by rw [hM1]; exact one_ne_zero)]
    refine ⟨?_, rfl, rfl⟩
    ext i j
    show (((elimRange m full (pr : ℕ)).foldl (elimRow pr col) S1).mat) i j = _
    rw [elimFold_mat pr col _ _ i (elimRange_nodup m full _) (elimRange_not_mem_pr m full _)]
    have hmem : ((i : ℕ) ∈ elimRange m full (pr : ℕ)) ↔
        (if full then (i : ℕ) ≠ S.pivotRow else S.pivotRow < (i : ℕ)) := by
      cases full
      · rw [if_neg (Bool.false_ne_true)]
        rw [mem_elimRange_false hpr]
        exact ⟨fun h => h.1, fun h => ⟨h, i.isLt⟩⟩
      · rw [if_pos rfl]
        rw [mem_elimRange_true]
        exact ⟨fun h => h.2, fun h => ⟨i.isLt, h⟩⟩
    have hS1row : S1.mat i = swapRows S.mat s pr i := rfl
    have hS1prrow : S1.mat pr = swapRows S.mat s pr pr := rfl
    by_cases hc : ((if full then (i : ℕ) ≠ S.pivotRow else S.pivotRow < (i : ℕ)) ∧
        swapRows S.mat s pr i col = 1)
    · rw [if_pos ⟨hmem.mpr hc.1, by rw [hS1row, hc.2]; exact one_ne_zero⟩]
      rw [Matrix.of_apply, if_pos hc, hS1row, hS1prrow, Pi.add_apply]
    · rw [Matrix.of_apply, if_neg hc]
      rw [if_neg (fun hcontra => hc ⟨hmem.mp hcontra.1,
        by rw [← hS1row]; exact zmod2_eq_one_of_ne_zero hcontra.2⟩)]
  · intro hall
    unfold colStep
    rw [dif_pos hpr]
    rcases swapPhase_spec S ⟨S.pivotRow, hpr⟩ col with ⟨s', hps', heq, hfirst', hcase'⟩
    rcases hcase' with h1 | ⟨h1, _⟩
    · exact absurd h1 (hall s' hps')
    · rw [heq, h1]
      rw [swapRows_self, swapRows_self]
      show elimPhase full S ⟨S.pivotRow, hpr⟩ col = S
      unfold elimPhase
      rw [if_neg (fun hcon =>
        hcon (zmod2_eq_zero_of_ne_one (hall ⟨S.pivotRow, hpr⟩ (le_refl _))))]

/-- Witness for C6 on `[[0, 1], [1, 0]]` at column 0: the first row holding a
`1` in column 0 is row 1, it is swapped up and the elimination leaves the
identity matrix with pivot row advanced to 1. -/
theorem C6_colStep_behavior_witness :
    (colStep false (⟨exSwapMat, 1, 0, []⟩ : EchState 2 2) (0 : Fin 2)).pivotRow = 1 ∧
    (colStep false (⟨exSwapMat, 1, 0, []⟩ : EchState 2 2) (0 : Fin 2)).mat = !![1, 0; 0, 1] := by
  have h := (C6_colStep_behavior false (⟨exSwapMat, 1, 0, []⟩ : EchState 2 2) 0
    (by decide)).1 (1 : Fin 2) (by decide) (by decide)
    (fun r h1 h2 => by
      have hr0 : r = 0 := by
        apply Fin.ext
        omega
      rw [hr0]
      decide)
  refine ⟨h.2.1, ?_⟩
  rw [h.1]
  decide

/-! ### Counting pivots below a column bound, for idempotence -/

theorem idxBelow_le_length {n : ℕ} (P : List (Fin n)) (k : ℕ) : idxBelow P k ≤ P.length :=
  List.length_filter_le _ _

theorem sorted_get_lt_iff {n : ℕ} {P : List (Fin n)}
    (hs : List.Pairwise (fun p q => Fin.val p < Fin.val q) P) (k : ℕ)
    (ρ : Fin P.length) : ((P.get ρ : Fin n) : ℕ) < k ↔ (ρ : ℕ) < idxBelow P k := by
  induction P with
  | nil => exact absurd ρ.isLt (by simp)
  | cons p P ih =>
    have hs' := List.pairwise_cons.mp hs
    by_cases hp : (p : ℕ) < k
    · have hstep : idxBelow (p :: P) k = idxBelow P k + 1 := by
        unfold idxBelow
        rw [List.filter_cons_of_pos (by simpa using hp)]
        simp
      rw [hstep]
      match ρ with
      | ⟨0, h0⟩ => simpa using hp
      | ⟨ρ' + 1, hρ⟩ =>
        have hiff := ih hs'.2 ⟨ρ', Nat.lt_of_succ_lt_succ hρ⟩
        simp only [List.get_cons_succ] at hiff ⊢
        omega
    · have hfil : List.filter (fun q => decide (Fin.val q < k)) P = [] := by
        rw [List.filter_eq_nil]
        intro a ha
        have := hs'.1 a ha
        simp only [decide_eq_true_eq]
        omega
      have hidx : idxBelow (p :: P) k = 0 := by
        unfold idxBelow
        rw [List.filter_cons_of_neg (by simpa using hp), hfil]
        rfl
      rw [hidx]
      match ρ with
      | ⟨0, h0⟩ => simpa using hp
      | ⟨ρ' + 1, hρ⟩ =>
        simp only [List.get_cons_succ]
        have hmem := List.get_mem P ρ' (Nat.lt_of_succ_lt_succ hρ)
        have := hs'.1 _ hmem
        constructor
        · intro hcon
          omega
        · intro hcon
          exact absurd hcon (Nat.not_lt_zero _)

theorem idxBelow_succ_not_mem {n : ℕ} {P : List (Fin n)} {k : ℕ} (hk : k < n)
    (hmem : (⟨k, hk⟩ : Fin n) ∉ P) : idxBelow P (k + 1) = idxBelow P k := by
  unfold idxBelow
  congr 1
  apply List.filter_congr
  intro a ha
  have hne : (a : ℕ) ≠ k := by
    intro he
    exact hmem (by rw [show (⟨k, hk⟩ : Fin n) = a from Fin.ext he.symm]; exact ha)
  simp only [decide_eq_decide]
  omega

theorem idxBelow_succ_mem {n : ℕ} {P : List (Fin n)}
    (hs : List.Pairwise (fun p q => Fin.val p < Fin.val q) P) {k : ℕ} (hk : k < n)
    (hmem : (⟨k, hk⟩ : Fin n) ∈ P) :
    ∃ hlen : idxBelow P k < P.length,
      P.get ⟨idxBelow P k, hlen⟩ = ⟨k, hk⟩ ∧ idxBelow P (k + 1) = idxBelow P k + 1 := by
  obtain ⟨ρ, hρ⟩ := List.mem_iff_get.mp hmem
  have hρk : ((P.get ρ : Fin n) : ℕ) = k := by rw [hρ]
  have h1 : ¬((ρ : ℕ) < idxBelow P k) := by
    rw [← sorted_get_lt_iff hs k ρ]
    omega
  have h2 : (ρ : ℕ) < idxBelow P (k + 1) := by
    rw [← sorted_get_lt_iff hs (k + 1) ρ]
    omega
  have hget_mono := List.pairwise_iff_get.mp hs
  have hρi : (ρ : ℕ) = idxBelow P k := by
    by_contra hcon
    have hlt : idxBelow P k < (ρ : ℕ) := by omega
    have hσ : idxBelow P k < P.length := lt_trans hlt ρ.isLt
    have hge : ¬((P.get ⟨idxBelow P k, hσ⟩ : Fin n) : ℕ) < k := by
      rw [sorted_get_lt_iff hs k ⟨idxBelow P k, hσ⟩]
      simp only [Fin.val_mk]
      omega
    have := hget_mono ⟨idxBelow P k, hσ⟩ ρ (by rw [Fin.lt_def]; exact hlt)
    simp only at this
    omega
  have hlen : idxBelow P k < P.length := by
    rw [← hρi]
    exact ρ.isLt
  refine ⟨hlen, ?_, ?_⟩
  · rw [show (⟨idxBelow P k, hlen⟩ : Fin P.length) = ρ from Fin.ext hρi.symm]
    exact hρ
  · have hle : idxBelow P (k + 1) ≤ idxBelow P k + 1 := by
      by_contra hcon
      have hτlen : idxBelow P k + 1 < P.length :=
        lt_of_lt_of_le (by omega) (idxBelow_le_length P (k + 1))
      have hτlt : ((P.get ⟨idxBelow P k + 1, hτlen⟩ : Fin n) : ℕ) < k + 1 := by
        rw [sorted_get_lt_iff hs (k + 1) ⟨idxBelow P k + 1, hτlen⟩]
        simp only [Fin.val_mk]
        omega
      have := hget_mono ⟨idxBelow P k, hlen⟩ ⟨idxBelow P k + 1, hτlen⟩
        (by rw [Fin.lt_def]; simp only [Fin.val_mk]; omega)
      rw [show (⟨idxBelow P k, hlen⟩ : Fin P.length) = ρ from Fin.ext hρi.symm, hρ] at this
      simp only [Fin.val_mk] at this
      omega
    omega

theorem elimFold_id {m n : ℕ} (pr : Fin m) (col : Fin n) (L : List ℕ) (S : EchState m n)
    (h : ∀ j ∈ L, ∀ (hj : j < m), S.mat ⟨j, hj⟩ col = 0) :
    L.foldl (elimRow pr col) S = S := by
  induction L with
  | nil => rfl
  | cons a L ih =>
    simp only [List.foldl_cons]
    have hstep : elimRow pr col S a = S := by
      unfold elimRow
      split_ifs with h1 h2
      · exact absurd (h a (List.mem_cons_self _ _) h1) h2.1
      · rfl
      · rfl
    rw [hstep]
    exact ih fun j hj hjm => h j (List.mem_cons_of_mem _ hj) hjm

theorem finRange_take_succ {n : ℕ} (k : ℕ) (hk : k < n) :
    (List.finRange n).take (k + 1) = (List.finRange n).take k ++ [⟨k, hk⟩] := by
  rw [List.take_succ]
  congr 1
  rw [List.getElem?_eq_getElem (by simpa using hk)]
  simp only [Option.toList_some, List.cons.injEq, and_true]
  apply Fin.ext
  simpa using List.get_finRange _

theorem take_succ_get {α : Type} (P : List α) (i : ℕ) (h : i < P.length) :
    P.take (i + 1) = P.take i ++ [P.get ⟨i, h⟩] := by
  rw [List.take_succ]
  congr 1
  rw [List.getElem?_eq_getElem h]
  rfl

/-! ### Claim C9 -/

theorem rowEchelon_idem_aux {m n : ℕ} (A : Matrix (Fin m) (Fin n) (ZMod 2)) (k : ℕ)
    (hk : k ≤ n) :
    ((List.finRange n).take k).foldl (colStep false)
        ⟨(rowEchelon false A).mat, 1, 0, []⟩ =
      ⟨(rowEchelon false A).mat, 1, idxBelow (rowEchelon false A).pivotCols k,
        (rowEchelon false A).pivotCols.take
          (idxBelow (rowEchelon false A).pivotCols k)⟩ := by
  have inv := rowEchelon_inv false A
  set R := (rowEchelon false A).mat with hRdef
  set P := (rowEchelon false A).pivotCols with hPdef
  have hplen : P.length = (rowEchelon false A).pivotRow := inv.plen
  have hpsorted : List.Pairwise (fun p q => Fin.val p < Fin.val q) P := inv.psorted
  have hpone : ∀ (i : Fin P.length) (hm : (i : ℕ) < m), R ⟨i, hm⟩ (P.get i) = 1 := inv.pone
  have hpzero : ∀ (i : Fin P.length) (r : Fin m), (i : ℕ) < (r : ℕ) → R r (P.get i) = 0 :=
    inv.pzero
  have hleftz : ∀ (i : Fin P.length) (hm : (i : ℕ) < m) (j : Fin n),
      (j : ℕ) < (P.get i : ℕ) → R ⟨i, hm⟩ j = 0 := inv.leftz
  have htailz : ∀ (r : Fin m), P.length ≤ (r : ℕ) → ∀ j : Fin n, R r j = 0 :=
    fun r hr j => inv.tailz r (le_trans (le_of_eq hplen.symm) hr) j j.isLt
  have hprlem : P.length ≤ m := le_trans (le_of_eq hplen) inv.prle
  clear inv hRdef hPdef
  induction k with
  | zero =>
    have h0 : idxBelow P 0 = 0 := by
      unfold idxBelow
      rw [List.filter_eq_nil.mpr]
      · rfl
      · intro a ha
        simp
    rw [h0]
    rfl
  | succ k ih =>
    have hkn : k < n := hk
    rw [finRange_take_succ k hkn, List.foldl_append, ih (le_of_lt hkn)]
    simp only [List.foldl_cons, List.foldl_nil]
    set ik := idxBelow P k with hikdef
    by_cases hkP : (⟨k, hkn⟩ : Fin n) ∈ P
    · obtain ⟨hlen, hgetk, hsucc⟩ := idxBelow_succ_mem hpsorted hkn hkP
      have hikm : ik < m := lt_of_lt_of_le hlen hprlem
      unfold colStep
      rw [dif_pos hikm]
      have hone : R ⟨ik, hikm⟩ (⟨k, hkn⟩ : Fin n) = 1 := by
        rw [← hgetk]
        exact hpone ⟨ik, hlen⟩ hikm
      have hswap : swapPhase ⟨R, 1, ik, P.take ik⟩ ⟨ik, hikm⟩ ⟨k, hkn⟩ =
          ⟨R, 1, ik, P.take ik⟩ := by
        unfold swapPhase
        rw [if_neg (by simpa using hone)]
      rw [hswap]
      unfold elimPhase
      rw [if_pos (show R ⟨ik, hikm⟩ (⟨k, hkn⟩ : Fin n) ≠ 0 from by
        rw [hone]; exact one_ne_zero)]
      rw [elimFold_id _ _ _ _ (fun j hj hjm => by
        have hikj : ik < j := ((mem_elimRange_false hikm j).mp hj).1
        have := hpzero ⟨ik, hlen⟩ ⟨j, hjm⟩ hikj
        rw [hgetk] at this
        exact this)]
      rw [hsucc, take_succ_get P ik hlen, hgetk]
    · have hsame : idxBelow P (k + 1) = ik := idxBelow_succ_not_mem hkn hkP
      rw [hsame]
      by_cases hikm : ik < m
      · have hzero : ∀ ρ : Fin m, ik ≤ (ρ : ℕ) → R ρ (⟨k, hkn⟩ : Fin n) = 0 := by
          intro ρ hρ
          by_cases hρr : (ρ : ℕ) < P.length
          · have hge : ¬((P.get ⟨ρ, hρr⟩ : Fin n) : ℕ) < k := by
              rw [sorted_get_lt_iff hpsorted k ⟨ρ, hρr⟩]
              simp only [Fin.val_mk]
              omega
            have hne : ((P.get ⟨ρ, hρr⟩ : Fin n) : ℕ) ≠ k := by
              intro he
              exact hkP (by
                rw [show (⟨k, hkn⟩ : Fin n) = P.get ⟨ρ, hρr⟩ from Fin.ext he.symm]
                exact List.get_mem _ _ _)
            have := hleftz ⟨ρ, hρr⟩ ρ.isLt ⟨k, hkn⟩ (by simp only [Fin.val_mk]; omega)
            exact this
          · exact htailz ρ (by omega) ⟨k, hkn⟩
        unfold colStep
        rw [dif_pos hikm]
        rcases swapPhase_spec ⟨R, 1, ik, P.take ik⟩ ⟨ik, hikm⟩ ⟨k, hkn⟩ with
          ⟨s, hps, heq, hfirst, hcase⟩
        rcases hcase with h1 | ⟨h1, _⟩
        · exfalso
          have hz := hzero s hps
          rw [show (⟨R, 1, ik, P.take ik⟩ : EchState m n).mat = R from rfl] at h1
          rw [hz] at h1
          exact absurd h1 (by decide)
        · rw [heq, h1, swapRows_self, swapRows_self]
          show elimPhase false ⟨R, 1, ik, P.take ik⟩ ⟨ik, hikm⟩ ⟨k, hkn⟩ = _
          unfold elimPhase
          rw [if_neg (not_not_intro (hzero ⟨ik, hikm⟩ (le_refl _)))]
      · unfold colStep
        rw [dif_neg hikm]

/-- Claim C9: `row_echelon` is idempotent: applying it to the echelon form it
returned gives back that matrix unchanged, with the same rank (and even the
same pivot columns). -/
theorem C9_row_echelon_idempotent {m n : ℕ} (A : Matrix (Fin m) (Fin n) (ZMod 2)) :
    (rowEchelon false (rowEchelonForm A)).mat = rowEchelonForm A ∧
    (rowEchelon false (rowEchelonForm A)).pivotRow = (rowEchelon false A).pivotRow ∧
    (rowEchelon false (rowEchelonForm A)).pivotCols = (rowEchelon false A).pivotCols := by
  have inv := rowEchelon_inv false A
  have haux := rowEchelon_idem_aux A n (le_refl n)
  rw [List.take_of_length_le (by simp)] at haux
  have hidxn : idxBelow (rowEchelon false A).pivotCols n =
      (rowEchelon false A).pivotCols.length := by
    unfold idxBelow
    rw [List.filter_eq_self.mpr]
    intro a ha
    simpa using a.isLt
  rw [hidxn] at haux
  have heq : rowEchelon false (rowEchelonForm A) =
      ⟨(rowEchelon false A).mat, 1, (rowEchelon false A).pivotCols.length,
        (rowEchelon false A).pivotCols.take (rowEchelon false A).pivotCols.length⟩ := haux
  rw [heq]
  refine ⟨rfl, inv.plen, ?_⟩
  exact List.take_length _

/-! ### Claim C3 -/

theorem zmod2_isUnit_det_iff {k : ℕ} (M : Matrix (Fin k) (Fin k) (ZMod 2)) :
    IsUnit M ↔ M.det = 1 := by
  rw [Matrix.isUnit_iff_isUnit_det, isUnit_iff_ne_zero]
  constructor
  · exact fun h => zmod2_eq_one_of_ne_zero h
  · intro h
    rw [h]
    exact one_ne_zero

/-- Claim C3: when the logical pairing `lx @ lz^T (mod 2)` is invertible,
`canonical_lx = inverse(lx @ lz^T) @ lx` satisfies
`canonical_lx @ lz^T ≡ Identity (mod 2)`; when the pairing is not invertible,
accessing `canonical_lx` propagates the engine's singularity failure. -/
theorem C3_canonical_lx_correct {k N : ℕ} (lx lz : Matrix (Fin k) (Fin N) (ZMod 2)) :
    (IsUnit (lx * lzᵀ) →
      canonical_lx lx lz = some ((lx * lzᵀ).adjugate * lx) ∧
      (lx * lzᵀ).adjugate * lx * lzᵀ = 1) ∧
    (¬IsUnit (lx * lzᵀ) → canonical_lx lx lz = none) := by
  constructor
  · intro h
    have hdet : (lx * lzᵀ).det = 1 := (zmod2_isUnit_det_iff _).mp h
    constructor
    · unfold canonical_lx mod2inverse
      rw [if_pos hdet]
      rfl
    · rw [Matrix.mul_assoc, Matrix.adjugate_mul, hdet]
      simp
  · intro h
    unfold canonical_lx mod2inverse
    rw [if_neg (fun hdet1 => h ((zmod2_isUnit_det_iff _).mpr hdet1))]
    rfl

/-- Witness for C3 at `lx = lz = [[1]]`: the pairing is `[[1]]`, invertible,
and the canonical logicals satisfy the duality identity. -/
theorem C3_canonical_lx_correct_witness :
    (canonical_lx exOne exOne).isSome = true ∧
    (canonical_lx exOne exOne).getD 0 * exOneᵀ = 1 := by
  have hU : IsUnit (exOne * exOneᵀ) := by
    rw [zmod2_isUnit_det_iff]
    decide
  obtain ⟨h1, h2⟩ := (C3_canonical_lx_correct exOne exOne).1 hU
  rw [h1]
  exact ⟨rfl, h2⟩

/-! ### Claim C4 -/

/-- Claim C4: the validity suite evaluates its six checks in order (the
embedded `CssCode` check list has six entries and `test` aggregates them with
`testValid`); each check's recorded outcome depends only on that check, a
raising check is recorded as Skipped (`none`, not `some false`) while the
remaining checks still run, the overall result is the conjunction in which a
Skipped check counts as failing, and `testValid` is a total boolean function
so no exception escapes to the caller. -/
theorem C4_test_error_handling {mx mz N : ℕ} (hx : Matrix (Fin mx) (Fin N) (ZMod 2))
    (hz : Matrix (Fin mz) (Fin N) (ZMod 2))
    (checks : List (String × Except String Bool)) :
    (cssTestsList hx hz).length = 6 ∧
    cssTest hx hz = testValid (cssTestsList hx hz) ∧
    (testResults checks).length = checks.length ∧
    (∀ (i : ℕ) (hi : i < checks.length),
      (testResults checks).get? i = some ((checks.get ⟨i, hi⟩).1,
        checkOutcome (checks.get ⟨i, hi⟩).2)) ∧
    (∀ (i : ℕ) (name e : String), checks.get? i = some (name, Except.error e) →
      (testResults checks).get? i = some (name, none) ∧ testValid checks = false) ∧
    (testValid checks = true ↔ ∀ c ∈ checks, c.2 = Except.ok true) := by
  refine ⟨rfl, rfl, by simp [testResults], ?_, ?_, ?_⟩
  · intro i hi
    unfold testResults
    rw [List.get?_eq_getElem? ]
    rw [List.getElem?_map]
    rw [List.getElem?_eq_getElem hi]
    rw [Option.map_some']
    rw [List.get_eq_getElem]
  · intro i name e hget
    have hres : (testResults checks).get? i = some (name, none) := by
      unfold testResults
      rw [List.get?_eq_getElem?] at hget ⊢
      rw [List.getElem?_map, hget]
      rfl
    refine ⟨hres, ?_⟩
    have hmem : (name, (none : Option Bool)) ∈ testResults checks :=
      List.get?_mem hres
    unfold testValid
    rw [List.all_eq_false]
    exact ⟨(name, none), hmem, by simp⟩
  · unfold testValid testResults
    rw [List.all_eq_true]
    constructor
    · intro h c hc
      have hm := h _ (List.mem_map_of_mem (fun nc => (nc.1, checkOutcome nc.2)) hc)
      simp only [beq_iff_eq] at hm
      cases hcc : c.2 with
      | ok b =>
        rw [hcc] at hm
        unfold checkOutcome at hm
        simp only [Option.some.injEq] at hm
        rw [hm]
      | error e =>
        rw [hcc] at hm
        exact absurd hm (by simp [checkOutcome])
    · intro h x hx
      obtain ⟨c, hc, rfl⟩ := List.mem_map.mp hx
      simp only [beq_iff_eq]
      rw [h c hc]
      rfl

/-- Witness for C4 on a concrete check list with a raising middle check: the
erroring check is recorded as Skipped and the aggregate is false. -/
theorem C4_test_error_handling_witness :
    (testResults [("a", Except.ok true), ("b", Except.error "boom"),
      ("c", Except.ok true)]).get? 1 = some ("b", none) ∧
    testValid [("a", Except.ok true), ("b", Except.error "boom"),
      ("c", Except.ok true)] = false := by
  exact (C4_test_error_handling exOne exOne
    [("a", Except.ok true), ("b", Except.error "boom"), ("c", Except.ok true)]).2.2.2.2.1
    1 "b" "boom" rfl

/-! ### Claim C5 -/

theorem block_index_lt {a b c d : ℕ} (ha : a < b) (hc : c < d) : a * d + c < b * d := by
  calc a * d + c < a * d + d := by omega
    _ = (a + 1) * d := by ring
    _ ≤ b * d := Nat.mul_le_mul_right d ha

theorem kron_apply_block {m1 n1 m2 n2 : ℕ} (A : Matrix (Fin m1) (Fin n1) (ZMod 2))
    (B : Matrix (Fin m2) (Fin n2) (ZMod 2)) (i1 i2 j1 j2 : ℕ)
    (hi1 : i1 < m1) (hi2 : i2 < m2) (hj1 : j1 < n1) (hj2 : j2 < n2) :
    kron A B ⟨i1 * m2 + i2, block_index_lt hi1 hi2⟩ ⟨j1 * n2 + j2, block_index_lt hj1 hj2⟩ =
      A ⟨i1, hi1⟩ ⟨j1, hj1⟩ * B ⟨i2, hi2⟩ ⟨j2, hj2⟩ := by
  unfold kron
  rw [Matrix.of_apply]
  congr 2
  · apply Fin.ext
    simp only [Fin.val_mk]
    rw [Nat.mul_comm i1 m2, Nat.mul_add_div (by omega), Nat.div_eq_of_lt hi2]
    omega
  · apply Fin.ext
    simp only [Fin.val_mk]
    rw [Nat.mul_comm j1 n2, Nat.mul_add_div (by omega), Nat.div_eq_of_lt hj2]
    omega
  · apply Fin.ext
    simp only [Fin.val_mk]
    rw [Nat.mul_comm i1 m2, Nat.mul_add_mod, Nat.mod_eq_of_lt hi2]
  · apply Fin.ext
    simp only [Fin.val_mk]
    rw [Nat.mul_comm j1 n2, Nat.mul_add_mod, Nat.mod_eq_of_lt hj2]

theorem hstackM_left {m n1 n2 : ℕ} (A : Matrix (Fin m) (Fin n1) (ZMod 2))
    (B : Matrix (Fin m) (Fin n2) (ZMod 2)) (i : Fin m) (j : Fin (n1 + n2))
    (hj : (j : ℕ) < n1) : hstackM A B i j = A i ⟨j, hj⟩ := by
  unfold hstackM
  rw [Matrix.of_apply, dif_pos hj]

theorem hstackM_right {m n1 n2 : ℕ} (A : Matrix (Fin m) (Fin n1) (ZMod 2))
    (B : Matrix (Fin m) (Fin n2) (ZMod 2)) (i : Fin m) (j : Fin (n1 + n2))
    (hj : ¬(j : ℕ) < n1) :
    hstackM A B i j = B i ⟨(j : ℕ) - n1, by have := j.isLt; omega⟩ := by
  unfold hstackM
  rw [Matrix.of_apply, dif_neg hj]

theorem vstackM_top {m1 m2 n : ℕ} (A : Matrix (Fin m1) (Fin n) (ZMod 2))
    (B : Matrix (Fin m2) (Fin n) (ZMod 2)) (i : Fin (m1 + m2)) (j : Fin n)
    (hi : (i : ℕ) < m1) : vstackM A B i j = A ⟨i, hi⟩ j := by
  unfold vstackM
  rw [Matrix.of_apply, dif_pos hi]

theorem vstackM_bot {m1 m2 n : ℕ} (A : Matrix (Fin m1) (Fin n) (ZMod 2))
    (B : Matrix (Fin m2) (Fin n) (ZMod 2)) (i : Fin (m1 + m2)) (j : Fin n)
    (hi : ¬(i : ℕ) < m1) :
    vstackM A B i j = B ⟨(i : ℕ) - m1, by have := i.isLt; omega⟩ j := by
  unfold vstackM
  rw [Matrix.of_apply, dif_neg hi]

/-- Claim C5: the HGP builder constructs
`hx = [h1 ⊗ I_n2 | I_m1 ⊗ h2ᵀ]` and `hz = [I_n1 ⊗ h2 | h1ᵀ ⊗ I_m2]`; in
particular `hx` has shape `(m1*n2, n1*n2 + m1*m2)`.  The Kronecker blocks are
characterized entrywise on flattened block indices, as numpy defines `kron`. -/
theorem C5_hgp_construction {m1 n1 m2 n2 : ℕ} (h1 : Matrix (Fin m1) (Fin n1) (ZMod 2))
    (h2 : Matrix (Fin m2) (Fin n2) (ZMod 2)) :
    npShape (HGP_hx h1 h2) = (m1 * n2, n1 * n2 + m1 * m2) ∧
    npShape (HGP_hz h1 h2) = (n1 * m2, n1 * n2 + m1 * m2) ∧
    (∀ i1 i2 j1 j2 (hi1 : i1 < m1) (hi2 : i2 < n2) (hj1 : j1 < n1) (hj2 : j2 < n2),
      HGP_hx h1 h2 ⟨i1 * n2 + i2, block_index_lt hi1 hi2⟩
          ⟨j1 * n2 + j2, lt_of_lt_of_le (block_index_lt hj1 hj2) (Nat.le_add_right _ _)⟩ =
        h1 ⟨i1, hi1⟩ ⟨j1, hj1⟩ * (if i2 = j2 then 1 else 0)) ∧
    (∀ i1 i2 j1 j2 (hi1 : i1 < m1) (hi2 : i2 < n2) (hj1 : j1 < m1) (hj2 : j2 < m2),
      HGP_hx h1 h2 ⟨i1 * n2 + i2, block_index_lt hi1 hi2⟩
          ⟨n1 * n2 + (j1 * m2 + j2), Nat.add_lt_add_left (block_index_lt hj1 hj2) _⟩ =
        (if i1 = j1 then 1 else 0) * h2 ⟨j2, hj2⟩ ⟨i2, hi2⟩) ∧
    (∀ i1 i2 j1 j2 (hi1 : i1 < n1) (hi2 : i2 < m2) (hj1 : j1 < n1) (hj2 : j2 < n2),
      HGP_hz h1 h2 ⟨i1 * m2 + i2, block_index_lt hi1 hi2⟩
          ⟨j1 * n2 + j2, lt_of_lt_of_le (block_index_lt hj1 hj2) (Nat.le_add_right _ _)⟩ =
        (if i1 = j1 then 1 else 0) * h2 ⟨i2, hi2⟩ ⟨j2, hj2⟩) ∧
    (∀ i1 i2 j1 j2 (hi1 : i1 < n1) (hi2 : i2 < m2) (hj1 : j1 < m1) (hj2 : j2 < m2),
      HGP_hz h1 h2 ⟨i1 * m2 + i2, block_index_lt hi1 hi2⟩
          ⟨n1 * n2 + (j1 * m2 + j2), Nat.add_lt_add_left (block_index_lt hj1 hj2) _⟩ =
        h1 ⟨j1, hj1⟩ ⟨i1, hi1⟩ * (if i2 = j2 then 1 else 0)) := by
  refine ⟨rfl, rfl, ?_, ?_, ?_, ?_⟩
  · intro i1 i2 j1 j2 hi1 hi2 hj1 hj2
    unfold HGP_hx
    rw [hstackM_left _ _ _ _ (block_index_lt hj1 hj2)]
    rw [kron_apply_block h1 _ i1 i2 j1 j2 hi1 hi2 hj1 hj2]
    rw [Matrix.one_apply]
    congr 1
    simp [Fin.ext_iff]
  · intro i1 i2 j1 j2 hi1 hi2 hj1 hj2
    unfold HGP_hx
    rw [hstackM_right _ _ _ _ (by simp only [Fin.val_mk]; omega)]
    have hsub : ((⟨n1 * n2 + (j1 * m2 + j2),
        Nat.add_lt_add_left (block_index_lt hj1 hj2) _⟩ : Fin (n1 * n2 + m1 * m2)) : ℕ) -
        n1 * n2 = j1 * m2 + j2 := by
      simp only [Fin.val_mk]
      omega
    rw [show (⟨((⟨n1 * n2 + (j1 * m2 + j2), Nat.add_lt_add_left (block_index_lt hj1 hj2) _⟩ :
        Fin (n1 * n2 + m1 * m2)) : ℕ) - n1 * n2, by
          have := Nat.add_lt_add_left (block_index_lt hj1 hj2) (n1 * n2)
          simp only [Fin.val_mk]
          omega⟩ : Fin (m1 * m2)) =
      ⟨j1 * m2 + j2, block_index_lt hj1 hj2⟩ from Fin.ext (by simp only [Fin.val_mk]; omega)]
    rw [kron_apply_block _ _ i1 i2 j1 j2 hi1 hi2 hj1 hj2]
    rw [Matrix.transpose_apply, Matrix.one_apply]
    congr 1
    simp [Fin.ext_iff]
  · intro i1 i2 j1 j2 hi1 hi2 hj1 hj2
    unfold HGP_hz
    rw [hstackM_left _ _ _ _ (block_index_lt hj1 hj2)]
    rw [kron_apply_block _ h2 i1 i2 j1 j2 hi1 hi2 hj1 hj2]
    rw [Matrix.one_apply]
    congr 1
    simp [Fin.ext_iff]
  · intro i1 i2 j1 j2 hi1 hi2 hj1 hj2
    unfold HGP_hz
    rw [hstackM_right _ _ _ _ (by simp only [Fin.val_mk]; omega)]
    rw [show (⟨((⟨n1 * n2 + (j1 * m2 + j2), Nat.add_lt_add_left (block_index_lt hj1 hj2) _⟩ :
        Fin (n1 * n2 + m1 * m2)) : ℕ) - n1 * n2, by
          have := Nat.add_lt_add_left (block_index_lt hj1 hj2) (n1 * n2)
          simp only [Fin.val_mk]
          omega⟩ : Fin (m1 * m2)) =
      ⟨j1 * m2 + j2, block_index_lt hj1 hj2⟩ from Fin.ext (by simp only [Fin.val_mk]; omega)]
    rw [kron_apply_block _ _ i1 i2 j1 j2 hi1 hi2 hj1 hj2]
    rw [Matrix.transpose_apply, Matrix.one_apply]
    congr 1
    simp [Fin.ext_iff]

/-- Witness for C5 at `h1 = h2 = [[1]]`: the hypergraph-product `hx` has shape
`(1, 2)` and its left-block entry `(0, 0)` equals `h1[0,0] * I[0,0] = 1`. -/
theorem C5_hgp_construction_witness :
    npShape (HGP_hx exOne exOne) = (1, 2) ∧
    HGP_hx exOne exOne ⟨0 * 1 + 0, block_index_lt Nat.one_pos Nat.one_pos⟩
      ⟨0 * 1 + 0, lt_of_lt_of_le (block_index_lt Nat.one_pos Nat.one_pos)
        (Nat.le_add_right _ _)⟩ = 1 := by
  have h := C5_hgp_construction exOne exOne
  refine ⟨h.1, ?_⟩
  rw [h.2.2.1 0 0 0 0 Nat.one_pos Nat.one_pos Nat.one_pos Nat.one_pos]
  decide

/-! ### Claim C8 -/

/-- Counterexample to C8 as stated: at `hx = hz = [[1]]` the code's combined
matrix is `[[0, 1], [1, 0]]`, not the block diagonal `[[1, 0], [0, 1]]` the
claim describes. -/
theorem C8_counterexample : cssH exOne exOne ≠ cssH_claimed exOne exOne := by
  decide

/-- Claim C8 (amended): `CssCode.h` is the anti-diagonal block combination
`[[0, hz], [hx, 0]]` — the left block column stacks a zero block of `hz`'s
shape atop `hx`, the right stacks `hz` atop a zero block of `hx`'s shape —
and `CssCode.l` is the same combination of `lx`/`lz` (the statement holds for
arbitrary blocks of matching column counts, so it covers both `h` and `l`). -/
theorem C8_h_structure {mx mz n : ℕ} (hx : Matrix (Fin mx) (Fin n) (ZMod 2))
    (hz : Matrix (Fin mz) (Fin n) (ZMod 2)) (i : Fin (mz + mx)) (j : Fin (n + n)) :
    cssH hx hz i j =
      if hi : (i : ℕ) < mz then
        (if hj : (j : ℕ) < n then 0
         else hz ⟨i, hi⟩ ⟨(j : ℕ) - n, by have := j.isLt; omega⟩)
      else
        (if hj : (j : ℕ) < n then hx ⟨(i : ℕ) - mz, by have := i.isLt; omega⟩ ⟨j, hj⟩
         else 0) := by
  unfold cssH
  by_cases hj : (j : ℕ) < n
  · rw [hstackM_left _ _ _ _ hj]
    by_cases hi : (i : ℕ) < mz
    · rw [vstackM_top _ _ _ _ hi, dif_pos hi, dif_pos hj]
      rfl
    · rw [vstackM_bot _ _ _ _ hi, dif_neg hi, dif_pos hj]
  · rw [hstackM_right _ _ _ _ hj]
    by_cases hi : (i : ℕ) < mz
    · rw [vstackM_top _ _ _ _ hi, dif_pos hi, dif_neg hj]
    · rw [vstackM_bot _ _ _ _ hi, dif_neg hi, dif_neg hj]
      rfl

/-! ### Claim C10 -/

/-- Counterexample to C10 as stated: constructing with an `hx` of zero columns
but an `hz` of three columns raises the column-mismatch exception instead of
warning and returning early. -/
theorem C10_counterexample :
    cssInit exZeroCols exThreeCols [("D", (3 : ℕ))] =
      Except.error "Error: hx and hz matrices must have equal numbers of columns!" := rfl

/-- Claim C10 (amended): when `hx` and `hz` both have zero columns (as with
the default empty matrices), the constructor prints the warning and returns
early without raising, and every extra keyword argument is silently discarded
instead of being applied as an override. -/
theorem C10_zero_column_init {mx mz : ℕ} {α : Type}
    (hx : Matrix (Fin mx) (Fin 0) (ZMod 2)) (hz : Matrix (Fin mz) (Fin 0) (ZMod 2))
    (kwargs : List (String × α)) :
    cssInit hx hz kwargs = Except.ok (true, ([] : List (String × α))) := rfl

/-! ### Claim C7 -/

/-- Claim C7 fails on the code (the `save_alist` call after the "Skipping .."
diagnostic is not guarded): requesting an absent property makes the whole
`save` call raise `AttributeError` from `getattr`, regardless of the external
`save_alist` behavior, and the matrix property requested after it is never
written. -/
theorem C7_save_aborts_on_absent_property
    (saveAlist : String → PropVal → Except String Unit) :
    save (fun p => if p = "hx" then some PropVal.matrix else none) saveAlist
      ["lx", "hx"] "code" = Except.error "AttributeError" := rfl

/-! ### Column analysis of the reduction, towards claim C1 -/

theorem listSpan_append {n : ℕ} (L1 L2 : List (Fin n → ZMod 2)) :
    listSpan (L1 ++ L2) = listSpan L1 ⊔ listSpan L2 := by
  unfold listSpan
  rw [← Submodule.span_union]
  congr 1
  ext v
  simp [List.mem_append]

theorem mem_listSpan_of_mem {n : ℕ} {L : List (Fin n → ZMod 2)} {v : Fin n → ZMod 2}
    (h : v ∈ L) : v ∈ listSpan L :=
  Submodule.subset_span h

theorem listSpan_le_of_subset {n : ℕ} {L1 L2 : List (Fin n → ZMod 2)}
    (h : ∀ v ∈ L1, v ∈ L2) : listSpan L1 ≤ listSpan L2 :=
  Submodule.span_le.mpr fun v hv => Submodule.subset_span (h v hv)

theorem listSpan_map_linearMap {n : ℕ}
    (e : (Fin n → ZMod 2) →ₗ[ZMod 2] (Fin n → ZMod 2)) (L : List (Fin n → ZMod 2)) :
    listSpan (L.map fun v => e v) = (listSpan L).map e := by
  unfold listSpan
  have hset : {v | v ∈ L.map fun v => e v} = e '' {v | v ∈ L} := by
    ext v
    simp [List.mem_map]
  rw [hset]
  exact (Submodule.map_span e _).symm

theorem echelon_col_eq {m n : ℕ} (full : Bool) (A : Matrix (Fin m) (Fin n) (ZMod 2))
    (j : Fin n) :
    ((rowEchelon full A).mat)ᵀ j = (rowEchelon full A).transform.mulVec (Aᵀ j) := by
  funext i
  rw [Matrix.transpose_apply, ← (rowEchelon_inv full A).teq, Matrix.mul_apply]
  simp [Matrix.mulVec, Matrix.dotProduct]

theorem echelon_equiv {m n : ℕ} (full : Bool) (A : Matrix (Fin m) (Fin n) (ZMod 2)) :
    ∃ e : (Fin m → ZMod 2) ≃ₗ[ZMod 2] (Fin m → ZMod 2),
      ∀ j : Fin n, e (Aᵀ j) = ((rowEchelon full A).mat)ᵀ j := by
  obtain ⟨U, hU⟩ := (rowEchelon_inv full A).tunit
  have hTU : (rowEchelon full A).transform * U = 1 := Matrix.mul_eq_one_comm.mp hU
  refine ⟨LinearEquiv.ofLinear (rowEchelon full A).transform.mulVecLin U.mulVecLin ?_ ?_,
    fun j => ?_⟩
  · rw [← Matrix.mulVecLin_mul, hTU, Matrix.mulVecLin_one]
  · rw [← Matrix.mulVecLin_mul, hU, Matrix.mulVecLin_one]
  · show (rowEchelon full A).transform.mulVecLin (Aᵀ j) = _
    rw [Matrix.mulVecLin_apply, ← echelon_col_eq]

theorem echelon_bottom_span {m n : ℕ} (full : Bool) (A : Matrix (Fin m) (Fin n) (ZMod 2))
    (k : ℕ) (hk : k ≤ (rowEchelon full A).pivotCols.length) (w : Fin m → ZMod 2)
    (hw : ∀ r : Fin m, k ≤ (r : ℕ) → w r = 0) :
    w ∈ listSpan (((rowEchelon full A).pivotCols.take k).map
      fun p => ((rowEchelon full A).mat)ᵀ p) := by
  set P := (rowEchelon full A).pivotCols with hP
  set R := (rowEchelon full A).mat with hR
  have hplen : P.length ≤ m :=
    le_trans (le_of_eq (rowEchelon_inv full A).plen) (rowEchelon_inv full A).prle
  have hpone : ∀ (i : Fin P.length) (hm : (i : ℕ) < m), R ⟨i, hm⟩ (P.get i) = 1 :=
    (rowEchelon_inv full A).pone
  have hpzero : ∀ (i : Fin P.length) (r : Fin m), (i : ℕ) < (r : ℕ) → R r (P.get i) = 0 :=
    (rowEchelon_inv full A).pzero
  induction k generalizing w with
  | zero =>
    have hzero : w = 0 := funext fun r => hw r (Nat.zero_le _)
    rw [hzero]
    exact Submodule.zero_mem _
  | succ k ih =>
    have hk' : k < P.length := hk
    have hkm : k < m := lt_of_lt_of_le hk' hplen
    set c : Fin m → ZMod 2 := Rᵀ (P.get ⟨k, hk'⟩) with hc
    set w' : Fin m → ZMod 2 := w + w ⟨k, hkm⟩ • c with hw'
    have hcval : ∀ r : Fin m, c r = R r (P.get ⟨k, hk'⟩) := fun r => rfl
    have hone1 : R ⟨k, hkm⟩ (P.get ⟨k, hk'⟩) = 1 := hpone ⟨k, hk'⟩ hkm
    have hvan : ∀ r : Fin m, k + 1 ≤ (r : ℕ) → c r = 0 := by
      intro r hr
      rw [hcval]
      exact hpzero ⟨k, hk'⟩ r (by simp only [Fin.val_mk]; omega)
    have hw'van : ∀ r : Fin m, k ≤ (r : ℕ) → w' r = 0 := by
      intro r hr
      rcases Nat.eq_or_lt_of_le hr with hr' | hr'
      · have hre : r = ⟨k, hkm⟩ := Fin.ext hr'.symm
        rw [hw']
        show w r + w ⟨k, hkm⟩ * c r = 0
        rw [hre, hcval, hone1, mul_one]
        exact zmod2_add_self _
      · rw [hw']
        show w r + w ⟨k, hkm⟩ * c r = 0
        rw [hw r (by omega), hvan r (by omega), mul_zero, add_zero]
    have hmem := ih w' hw'van (le_of_lt hk')
    have hfin : w = w' + w ⟨k, hkm⟩ • c := by
      funext r
      show w r = (w r + w ⟨k, hkm⟩ * c r) + w ⟨k, hkm⟩ * c r
      rw [add_assoc, zmod2_add_self, add_zero]
    rw [hfin]
    refine Submodule.add_mem _ ?_ (Submodule.smul_mem _ _ ?_)
    · refine listSpan_le_of_subset ?_ hmem
      intro v hv
      rw [take_succ_get P k hk', List.map_append]
      exact List.mem_append_left _ hv
    · apply mem_listSpan_of_mem
      rw [take_succ_get P k hk', List.map_append]
      refine List.mem_append_right _ ?_
      simp [hc]

theorem echelon_nonpivot_vanish {m n : ℕ} (full : Bool)
    (A : Matrix (Fin m) (Fin n) (ZMod 2)) (j : Fin n)
    (hj : j ∉ (rowEchelon full A).pivotCols) (ρ : Fin m)
    (hρ : idxBelow (rowEchelon full A).pivotCols (j : ℕ) ≤ (ρ : ℕ)) :
    (rowEchelon full A).mat ρ j = 0 := by
  set P := (rowEchelon full A).pivotCols with hP
  set R := (rowEchelon full A).mat with hR
  have hpsorted : List.Pairwise (fun p q => Fin.val p < Fin.val q) P :=
    (rowEchelon_inv full A).psorted
  have hleftz : ∀ (i : Fin P.length) (hm : (i : ℕ) < m) (jc : Fin n),
      (jc : ℕ) < (P.get i : ℕ) → R ⟨i, hm⟩ jc = 0 := (rowEchelon_inv full A).leftz
  have htailz : ∀ (r : Fin m), P.length ≤ (r : ℕ) → R r j = 0 := fun r hr =>
    (rowEchelon_inv full A).tailz r
      (le_trans (le_of_eq (rowEchelon_inv full A).plen.symm) hr) j j.isLt
  by_cases hρr : (ρ : ℕ) < P.length
  · have hge : ¬((P.get ⟨ρ, hρr⟩ : Fin n) : ℕ) < (j : ℕ) := by
      rw [sorted_get_lt_iff hpsorted (j : ℕ) ⟨ρ, hρr⟩]
      simp only [Fin.val_mk]
      omega
    have hne : ((P.get ⟨ρ, hρr⟩ : Fin n) : ℕ) ≠ (j : ℕ) := by
      intro he
      exact hj (by rw [show j = P.get ⟨ρ, hρr⟩ from Fin.ext he.symm]; exact List.get_mem _ _ _)
    have := hleftz ⟨ρ, hρr⟩ ρ.isLt j (by omega)
    exact this
  · exact htailz ρ (by omega)

theorem range_get_image {α β : Type} (L : List α) (f : α → β) :
    Set.range (fun i : Fin L.length => f (L.get i)) = f '' {a | a ∈ L} := by
  ext v
  constructor
  · rintro ⟨i, rfl⟩
    exact ⟨L.get i, List.get_mem _ _ _, rfl⟩
  · rintro ⟨a, ha, rfl⟩
    obtain ⟨i, rfl⟩ := List.mem_iff_get.mp ha
    exact ⟨i, rfl⟩

theorem echelon_span_transfer {m n : ℕ} (full : Bool) (A : Matrix (Fin m) (Fin n) (ZMod 2))
    (S : Set (Fin n)) (j : Fin n)
    (hj : ((rowEchelon full A).mat)ᵀ j ∈
      Submodule.span (ZMod 2) ((fun c => ((rowEchelon full A).mat)ᵀ c) '' S)) :
    Aᵀ j ∈ Submodule.span (ZMod 2) ((fun c => Aᵀ c) '' S) := by
  obtain ⟨e, he⟩ := echelon_equiv full A
  have himg : (fun c => ((rowEchelon full A).mat)ᵀ c) '' S =
      (e : (Fin m → ZMod 2) →ₗ[ZMod 2] (Fin m → ZMod 2)) '' ((fun c => Aᵀ c) '' S) := by
    rw [Set.image_image]
    apply Set.image_congr
    intro c _
    exact (he c).symm
  rw [himg, ← Submodule.map_span, ← he j] at hj
  have := Submodule.mem_map.mp hj
  obtain ⟨y, hy, hey⟩ := this
  have hyj : y = Aᵀ j := by
    have : e y = e (Aᵀ j) := hey
    exact e.injective this
  rw [← hyj]
  exact hy

theorem echelon_nonpivot_col_mem_A {m n : ℕ} (full : Bool)
    (A : Matrix (Fin m) (Fin n) (ZMod 2)) (j : Fin n)
    (hj : j ∉ (rowEchelon full A).pivotCols) :
    Aᵀ j ∈ Submodule.span (ZMod 2)
      ((fun c => Aᵀ c) '' {c : Fin n | (c : ℕ) < (j : ℕ)}) := by
  apply echelon_span_transfer full A _ j
  set P := (rowEchelon full A).pivotCols with hP
  set R := (rowEchelon full A).mat with hR
  have hpsorted : List.Pairwise (fun p q => Fin.val p < Fin.val q) P :=
    (rowEchelon_inv full A).psorted
  have h1 : Rᵀ j ∈ listSpan ((P.take (idxBelow P (j : ℕ))).map fun p => Rᵀ p) :=
    echelon_bottom_span full A _ (idxBelow_le_length P _) _
      (fun ρ hρ => echelon_nonpivot_vanish full A j hj ρ hρ)
  refine Submodule.span_le.mpr ?_ (h1 : _)
  intro v hv
  simp only [List.mem_map] at hv
  obtain ⟨p, hp, rfl⟩ := hv
  apply Submodule.subset_span
  refine ⟨p, ?_, rfl⟩
  obtain ⟨i, hip⟩ := List.mem_iff_get.mp hp
  have h3 : (P.take (idxBelow P (j : ℕ))).length = min (idxBelow P (j : ℕ)) P.length :=
    List.length_take _ _
  have hilen : (i : ℕ) < P.length := by
    have h2 := i.isLt
    omega
  have hgt : (P.take (idxBelow P (j : ℕ))).get i = P.get ⟨i, hilen⟩ := by
    rw [List.get_eq_getElem, List.get_eq_getElem]
    exact List.getElem_take _
  have hidx : (i : ℕ) < idxBelow P (j : ℕ) := by
    have h2 := i.isLt
    omega
  rw [← hip, hgt]
  show ((P.get ⟨i, hilen⟩ : Fin n) : ℕ) < (j : ℕ)
  rw [sorted_get_lt_iff hpsorted (j : ℕ) ⟨i, hilen⟩]
  simp only [Fin.val_mk]
  exact hidx

theorem pivot_cols_linearIndependent {m n : ℕ} (full : Bool)
    (A : Matrix (Fin m) (Fin n) (ZMod 2)) :
    LinearIndependent (ZMod 2)
      (fun i : Fin (rowEchelon full A).pivotCols.length =>
        Aᵀ ((rowEchelon full A).pivotCols.get i)) := by
  obtain ⟨e, he⟩ := echelon_equiv full A
  set P := (rowEchelon full A).pivotCols with hP
  set R := (rowEchelon full A).mat with hR
  have hplen : P.length ≤ m :=
    le_trans (le_of_eq (rowEchelon_inv full A).plen) (rowEchelon_inv full A).prle
  have hpone : ∀ (i : Fin P.length) (hm : (i : ℕ) < m), R ⟨i, hm⟩ (P.get i) = 1 :=
    (rowEchelon_inv full A).pone
  have hpzero : ∀ (i : Fin P.length) (r : Fin m), (i : ℕ) < (r : ℕ) → R r (P.get i) = 0 :=
    (rowEchelon_inv full A).pzero
  have hRind : LinearIndependent (ZMod 2) (fun i : Fin P.length => Rᵀ (P.get i)) := by
    rw [Fintype.linearIndependent_iff]
    intro g hg
    by_contra hcon
    push_neg at hcon
    obtain ⟨i0, hi0⟩ := hcon
    have hne : (Finset.univ.filter fun i => g i ≠ 0).Nonempty :=
      ⟨i0, by simp [hi0]⟩
    set imax := (Finset.univ.filter fun i => g i ≠ 0).max' hne with himax
    have hgmax : g imax ≠ 0 := by
      have := (Finset.univ.filter fun i => g i ≠ 0).max'_mem hne
      rw [← himax] at this
      exact (Finset.mem_filter.mp this).2
    have hmaxm : (imax : ℕ) < m := lt_of_lt_of_le imax.isLt hplen
    have hrow := congrFun hg ⟨imax, hmaxm⟩
    rw [Finset.sum_apply] at hrow
    have hsingle : ∀ b ∈ Finset.univ, b ≠ imax →
        (g b • Rᵀ (P.get b)) ⟨(imax : ℕ), hmaxm⟩ = 0 := by
      intro b _ hb
      by_cases hgb : g b = 0
      · show g b * R ⟨imax, hmaxm⟩ (P.get b) = 0
        rw [hgb, zero_mul]
      · have hbmem : b ∈ Finset.univ.filter fun i => g i ≠ 0 := by simp [hgb]
        have hble : b ≤ imax := Finset.le_max' _ b hbmem
        have hblt : (b : ℕ) < (imax : ℕ) := by
          rcases lt_or_eq_of_le hble with h | h
          · exact h
          · exact absurd h hb
        show g b * R ⟨imax, hmaxm⟩ (P.get b) = 0
        rw [hpzero b ⟨imax, hmaxm⟩ (by simp only [Fin.val_mk]; exact hblt), mul_zero]
    rw [Finset.sum_eq_single imax hsingle (fun h => absurd (Finset.mem_univ _) h)] at hrow
    have : g imax * R ⟨imax, hmaxm⟩ (P.get imax) = 0 := hrow
    rw [hpone imax hmaxm, mul_one] at this
    exact hgmax this
  have hcomp : (fun i : Fin P.length => Aᵀ (P.get i)) =
      (e.symm : (Fin m → ZMod 2) →ₗ[ZMod 2] (Fin m → ZMod 2)) ∘
        fun i : Fin P.length => Rᵀ (P.get i) := by
    funext i
    show Aᵀ (P.get i) = e.symm (Rᵀ (P.get i))
    rw [← he (P.get i), LinearEquiv.symm_apply_apply]
  rw [hcomp]
  exact hRind.map' _ (LinearEquiv.ker _)

theorem pivot_cols_span {m n : ℕ} (full : Bool) (A : Matrix (Fin m) (Fin n) (ZMod 2)) :
    Submodule.span (ZMod 2)
        (Set.range fun i : Fin (rowEchelon full A).pivotCols.length =>
          Aᵀ ((rowEchelon full A).pivotCols.get i)) =
      Submodule.span (ZMod 2) (Set.range Aᵀ) := by
  set P := (rowEchelon full A).pivotCols with hP
  apply le_antisymm
  · apply Submodule.span_le.mpr
    rintro v ⟨i, rfl⟩
    exact Submodule.subset_span ⟨P.get i, rfl⟩
  · apply Submodule.span_le.mpr
    rintro v ⟨j, rfl⟩
    rw [range_get_image]
    apply echelon_span_transfer full A _ j
    have h1 : ((rowEchelon full A).mat)ᵀ j ∈
        listSpan ((P.take P.length).map fun p => ((rowEchelon full A).mat)ᵀ p) := by
      apply echelon_bottom_span full A P.length (le_refl _)
      intro r hr
      exact (rowEchelon_inv full A).tailz r
        (le_trans (le_of_eq (rowEchelon_inv full A).plen.symm) hr) j j.isLt
    rw [List.take_length] at h1
    refine Submodule.span_le.mpr ?_ (h1 : _)
    intro v hv
    simp only [List.mem_map] at hv
    obtain ⟨p, hp, rfl⟩ := hv
    exact Submodule.subset_span ⟨p, hp, rfl⟩

/-- The engine's rank (number of pivots of the default reduction) is the
mathematical rank of the matrix over `GF(2)`. -/
theorem mod2rank_eq_rank {m n : ℕ} (A : Matrix (Fin m) (Fin n) (ZMod 2)) :
    mod2rank A = A.rank := by
  rw [Matrix.rank_eq_finrank_span_cols]
  rw [← pivot_cols_span false A]
  rw [finrank_span_eq_card (pivot_cols_linearIndependent false A)]
  rw [Fintype.card_fin]
  unfold mod2rank
  rw [(rowEchelon_inv false A).plen]

theorem pairwise_val_nodup {n : ℕ} {P : List (Fin n)}
    (h : List.Pairwise (fun p q => Fin.val p < Fin.val q) P) : P.Nodup := by
  refine h.imp ?_
  intro a b hab he
  rw [he] at hab
  omega

theorem mulVec_single_col {m n : ℕ} (M : Matrix (Fin m) (Fin n) (ZMod 2)) (j : Fin n) :
    M.mulVec (Pi.single j 1) = Mᵀ j := by
  funext i
  show M.mulVec (Pi.single j 1) i = M i j
  simp [Matrix.mulVec, Matrix.dotProduct, Pi.single_apply]

theorem mem_freeCols {n : ℕ} {P : List (Fin n)} {j : Fin n} :
    j ∈ freeCols P ↔ j ∉ P := by
  unfold freeCols
  rw [List.mem_filter]
  simp [List.mem_finRange]

theorem freeCols_nodup {n : ℕ} (P : List (Fin n)) : (freeCols P).Nodup :=
  List.Nodup.filter _ (List.nodup_finRange n)

theorem backSubstVec_decomp {m n : ℕ} (R : Matrix (Fin m) (Fin n) (ZMod 2))
    (P : List (Fin n)) (f : Fin n) (hPm : P.length ≤ m) (hf : f ∉ P) (hnd : P.Nodup) :
    backSubstVec R P f = (Pi.single f (1 : ZMod 2) : Fin n → ZMod 2) +
      ∑ i : Fin P.length,
        R ⟨(i : ℕ), lt_of_lt_of_le i.isLt hPm⟩ f •
          (Pi.single (P.get i) (1 : ZMod 2) : Fin n → ZMod 2) := by
  funext j
  rw [Pi.add_apply, Finset.sum_apply]
  simp only [backSubstVec]
  by_cases hjf : j = f
  · subst hjf
    rw [if_pos rfl, Pi.single_eq_same]
    rw [Finset.sum_eq_zero]
    · rw [add_zero]
    · intro i _
      rw [Pi.smul_apply, Pi.single_eq_of_ne, smul_zero]
      intro he
      exact hf (he ▸ List.get_mem P (i : ℕ) i.isLt)
  · rw [if_neg hjf]
    have hj1 : (Pi.single f (1 : ZMod 2) : Fin n → ZMod 2) j = 0 := by
      rw [Pi.single_eq_of_ne hjf]
    by_cases hjP : j ∈ P
    · rw [if_pos hjP]
      obtain ⟨i0, hi0⟩ := List.mem_iff_get.mp hjP
      have hidx : P.indexOf j = (i0 : ℕ) := by
        rw [← hi0]
        exact List.get_indexOf hnd i0
      simp only [hidx]
      rw [dif_pos (lt_of_lt_of_le i0.isLt hPm)]
      have h0 : ∀ b ∈ Finset.univ, b ≠ i0 →
          (R ⟨(b : ℕ), lt_of_lt_of_le b.isLt hPm⟩ f •
            (Pi.single (P.get b) (1 : ZMod 2) : Fin n → ZMod 2)) j = 0 := by
        intro b _ hb
        rw [Pi.smul_apply, Pi.single_eq_of_ne, smul_zero]
        intro he
        exact hb ((List.Nodup.get_inj_iff hnd).mp (by rw [← he, hi0]))
      have h1 := Finset.sum_eq_single i0 h0 (fun hh => absurd (Finset.mem_univ _) hh)
      rw [h1, hj1, zero_add, Pi.smul_apply, hi0, Pi.single_eq_same, smul_eq_mul, mul_one]
    · rw [if_neg hjP, hj1, zero_add]
      symm
      apply Finset.sum_eq_zero
      intro i _
      rw [Pi.smul_apply, Pi.single_eq_of_ne, smul_zero]
      intro he
      exact hjP (he ▸ List.get_mem P (i : ℕ) i.isLt)

theorem backSubstVec_eval_nonpivot {m n : ℕ} (R : Matrix (Fin m) (Fin n) (ZMod 2))
    (P : List (Fin n)) (f j : Fin n) (hj : j ∉ P) :
    backSubstVec R P f j = if j = f then 1 else 0 := by
  simp only [backSubstVec]
  by_cases h : j = f
  · rw [if_pos h, if_pos h]
  · rw [if_neg h, if_neg h, if_neg hj]

theorem echelon_null_mulVec {m n : ℕ} (A : Matrix (Fin m) (Fin n) (ZMod 2)) (f : Fin n)
    (hf : f ∈ freeCols (rowEchelon true A).pivotCols) :
    (rowEchelon true A).mat.mulVec
      (backSubstVec (rowEchelon true A).mat (rowEchelon true A).pivotCols f) = 0 := by
  set P := (rowEchelon true A).pivotCols with hP
  set R := (rowEchelon true A).mat with hR
  have hfP : f ∉ P := mem_freeCols.mp hf
  have hnd : P.Nodup := pairwise_val_nodup (rowEchelon_inv true A).psorted
  have hPm : P.length ≤ m :=
    le_trans (le_of_eq (rowEchelon_inv true A).plen) (rowEchelon_inv true A).prle
  have hpone : ∀ (i : Fin P.length) (hm : (i : ℕ) < m), R ⟨i, hm⟩ (P.get i) = 1 :=
    (rowEchelon_inv true A).pone
  have habove : ∀ (i : Fin P.length) (r : Fin m), (r : ℕ) ≠ (i : ℕ) → R r (P.get i) = 0 :=
    (rowEchelon_inv true A).pzeroAbove rfl
  have htailz : ∀ (r : Fin m), P.length ≤ (r : ℕ) → R r f = 0 := by
    intro r hr
    exact (rowEchelon_inv true A).tailz r
      (le_trans (le_of_eq (rowEchelon_inv true A).plen.symm) hr) f f.isLt
  rw [backSubstVec_decomp R P f hPm hfP hnd, Matrix.mulVec_add]
  have hsing : R.mulVec (Pi.single f (1 : ZMod 2)) = Rᵀ f := mulVec_single_col R f
  have hVsum : R.mulVec (∑ i : Fin P.length,
        R ⟨(i : ℕ), lt_of_lt_of_le i.isLt hPm⟩ f • Pi.single (P.get i) (1 : ZMod 2))
      = ∑ i : Fin P.length,
        R ⟨(i : ℕ), lt_of_lt_of_le i.isLt hPm⟩ f • Rᵀ (P.get i) := by
    simp only [← Matrix.mulVecLin_apply, map_sum, LinearMap.map_smul]
    simp only [Matrix.mulVecLin_apply, mulVec_single_col]
  rw [hVsum, hsing]
  funext r
  rw [Pi.add_apply, Finset.sum_apply, Pi.zero_apply]
  simp only [Pi.smul_apply, smul_eq_mul, Matrix.transpose_apply]
  by_cases hr : (r : ℕ) < P.length
  · have h0 : ∀ b ∈ Finset.univ, b ≠ (⟨(r : ℕ), hr⟩ : Fin P.length) →
        R ⟨(b : ℕ), lt_of_lt_of_le b.isLt hPm⟩ f * R r (P.get b) = 0 := by
      intro b _ hb
      rw [habove b r ?_, mul_zero]
      intro he
      apply hb
      apply Fin.ext
      simp only [Fin.val_mk]
      exact he.symm
    have h1 := Finset.sum_eq_single (⟨(r : ℕ), hr⟩ : Fin P.length) h0
      (fun hh => absurd (Finset.mem_univ _) hh)
    rw [h1]
    have hone : R r (P.get ⟨(r : ℕ), hr⟩) = 1 := hpone ⟨(r : ℕ), hr⟩ (lt_of_lt_of_le hr hPm)
    rw [hone, mul_one]
    exact zmod2_add_self (R r f)
  · rw [Finset.sum_eq_zero, add_zero]
    · exact htailz r (le_of_not_lt hr)
    · intro b _
      rw [habove b r ?_, mul_zero]
      have := b.isLt
      omega

theorem echelon_nullSpace_eq {m n : ℕ} (full : Bool) (A : Matrix (Fin m) (Fin n) (ZMod 2)) :
    nullSpace (rowEchelon full A).mat = nullSpace A := by
  obtain ⟨U, hU⟩ := (rowEchelon_inv full A).tunit
  have hteq := (rowEchelon_inv full A).teq
  have hA : A = U * (rowEchelon full A).mat := by
    rw [← hteq, ← Matrix.mul_assoc, hU, Matrix.one_mul]
  ext v
  simp only [nullSpace, LinearMap.mem_ker, Matrix.mulVecLin_apply]
  constructor
  · intro h
    rw [hA, ← Matrix.mulVec_mulVec, h, Matrix.mulVec_zero]
  · intro h
    rw [← hteq, ← Matrix.mulVec_mulVec, h, Matrix.mulVec_zero]

theorem nullspaceRows_mem_null {m n : ℕ} (A : Matrix (Fin m) (Fin n) (ZMod 2)) :
    ∀ v ∈ nullspaceRows A, v ∈ nullSpace A := by
  intro v hv
  rw [← echelon_nullSpace_eq true A]
  simp only [nullspaceRows, List.mem_map] at hv
  obtain ⟨f, hf, rfl⟩ := hv
  show _ ∈ LinearMap.ker _
  rw [LinearMap.mem_ker, Matrix.mulVecLin_apply]
  exact echelon_null_mulVec A f hf

theorem null_mem_span_nullspaceRows {m n : ℕ} (A : Matrix (Fin m) (Fin n) (ZMod 2)) :
    ∀ v ∈ nullSpace A, v ∈ listSpan (nullspaceRows A) := by
  intro v hv
  set P := (rowEchelon true A).pivotCols with hP
  set R := (rowEchelon true A).mat with hR
  set F := freeCols P with hF
  have hnd : P.Nodup := pairwise_val_nodup (rowEchelon_inv true A).psorted
  have hFnd : F.Nodup := freeCols_nodup P
  have hPm : P.length ≤ m :=
    le_trans (le_of_eq (rowEchelon_inv true A).plen) (rowEchelon_inv true A).prle
  have hpone : ∀ (i : Fin P.length) (hm : (i : ℕ) < m), R ⟨i, hm⟩ (P.get i) = 1 :=
    (rowEchelon_inv true A).pone
  have habove : ∀ (i : Fin P.length) (r : Fin m), (r : ℕ) ≠ (i : ℕ) → R r (P.get i) = 0 :=
    (rowEchelon_inv true A).pzeroAbove rfl
  have hvR : R.mulVec v = 0 := by
    rw [← echelon_nullSpace_eq true A] at hv
    exact hv
  set s : Fin n → ZMod 2 :=
    ∑ j : Fin F.length, v (F.get j) • backSubstVec R P (F.get j) with hs
  set w : Fin n → ZMod 2 := v + s with hw
  have hwnull : R.mulVec w = 0 := by
    rw [hw, Matrix.mulVec_add, hvR, zero_add, hs]
    simp only [← Matrix.mulVecLin_apply, map_sum, LinearMap.map_smul]
    apply Finset.sum_eq_zero
    intro j _
    have hnm := echelon_null_mulVec A (F.get j) (List.get_mem F (j : ℕ) j.isLt)
    rw [← hR, ← hP] at hnm
    rw [Matrix.mulVecLin_apply, hnm, smul_zero]
  have hwnonpiv : ∀ jc : Fin n, jc ∉ P → w jc = 0 := by
    intro jc hjc
    have hjcF : jc ∈ F := mem_freeCols.mpr hjc
    obtain ⟨j0, hj0⟩ := List.mem_iff_get.mp hjcF
    rw [hw, Pi.add_apply, hs, Finset.sum_apply]
    have h0 : ∀ b ∈ Finset.univ, b ≠ j0 →
        (v (F.get b) • backSubstVec R P (F.get b)) jc = 0 := by
      intro b _ hb
      rw [Pi.smul_apply, backSubstVec_eval_nonpivot R P (F.get b) jc hjc, if_neg, smul_zero]
      intro he
      exact hb ((List.Nodup.get_inj_iff hFnd).mp (by rw [hj0, he]))
    rw [Finset.sum_eq_single j0 h0 (fun hh => absurd (Finset.mem_univ _) hh), Pi.smul_apply,
      backSubstVec_eval_nonpivot R P (F.get j0) jc hjc, if_pos hj0.symm, smul_eq_mul, mul_one,
      hj0]
    exact zmod2_add_self (v jc)
  have hwpiv : ∀ i : Fin P.length, w (P.get i) = 0 := by
    intro i
    have him : (i : ℕ) < m := lt_of_lt_of_le i.isLt hPm
    have hrow : R.mulVec w ⟨(i : ℕ), him⟩ = 0 := by rw [hwnull]; rfl
    have hsum : R.mulVec w ⟨(i : ℕ), him⟩ = ∑ jc : Fin n, R ⟨(i : ℕ), him⟩ jc * w jc := by
      simp [Matrix.mulVec, Matrix.dotProduct]
    have h0 : ∀ jc ∈ Finset.univ, jc ≠ P.get i → R ⟨(i : ℕ), him⟩ jc * w jc = 0 := by
      intro jc _ hjc
      by_cases hjcP : jc ∈ P
      · obtain ⟨i', hi'⟩ := List.mem_iff_get.mp hjcP
        have hii : (⟨(i : ℕ), him⟩ : Fin m).val ≠ (i' : ℕ) := by
          simp only [Fin.val_mk]
          intro he
          apply hjc
          rw [← hi']
          congr 1
          exact (Fin.ext he).symm
        rw [← hi', habove i' ⟨(i : ℕ), him⟩ hii, zero_mul]
      · rw [hwnonpiv jc hjcP, mul_zero]
    have h1 := Finset.sum_eq_single (P.get i) h0 (fun hh => absurd (Finset.mem_univ _) hh)
    rw [hsum, h1, hpone i him, one_mul] at hrow
    exact hrow
  have hw0 : w = 0 := by
    funext jc
    by_cases hjcP : jc ∈ P
    · obtain ⟨i, hi⟩ := List.mem_iff_get.mp hjcP
      rw [← hi]
      exact hwpiv i
    · exact hwnonpiv jc hjcP
  have hveq : v = s := by
    funext jc
    have h := congrFun hw0 jc
    rw [hw, Pi.add_apply] at h
    calc v jc = v jc + (s jc + s jc) := by rw [zmod2_add_self, add_zero]
      _ = (v jc + s jc) + s jc := by rw [add_assoc]
      _ = 0 + s jc := by rw [h]; rfl
      _ = s jc := zero_add _
  rw [hveq, hs]
  apply Submodule.sum_mem
  intro j _
  apply Submodule.smul_mem
  apply Submodule.subset_span
  show backSubstVec R P (F.get j) ∈ nullspaceRows A
  simp only [nullspaceRows, List.mem_map]
  exact ⟨F.get j, List.get_mem F (j : ℕ) j.isLt, rfl⟩

theorem nullspaceRows_span_eq {m n : ℕ} (A : Matrix (Fin m) (Fin n) (ZMod 2)) :
    listSpan (nullspaceRows A) = nullSpace A := by
  apply le_antisymm
  · exact Submodule.span_le.mpr fun v hv => nullspaceRows_mem_null A v hv
  · intro v hv
    exact null_mem_span_nullspaceRows A v hv

theorem rank_add_finrank_nullSpace {m n : ℕ} (A : Matrix (Fin m) (Fin n) (ZMod 2)) :
    A.rank + Module.finrank (ZMod 2) (nullSpace A) = n := by
  have h := LinearMap.finrank_range_add_finrank_ker A.mulVecLin
  rw [Module.finrank_fintype_fun_eq_card, Fintype.card_fin] at h
  exact h

theorem pivot_length_eq_rank {m n : ℕ} (full : Bool) (A : Matrix (Fin m) (Fin n) (ZMod 2)) :
    (rowEchelon full A).pivotCols.length = A.rank := by
  rw [Matrix.rank_eq_finrank_span_cols, ← pivot_cols_span full A,
    finrank_span_eq_card (pivot_cols_linearIndependent full A), Fintype.card_fin]

theorem rowBasisRows_length {m n : ℕ} (A : Matrix (Fin m) (Fin n) (ZMod 2)) :
    (rowBasisRows A).length = A.rank := by
  unfold rowBasisRows
  rw [List.length_map]
  show (rowEchelon false Aᵀ).pivotCols.length = A.rank
  rw [pivot_length_eq_rank false Aᵀ, Matrix.rank_transpose]

theorem rowBasisRows_indep {m n : ℕ} (A : Matrix (Fin m) (Fin n) (ZMod 2)) :
    LinearIndependent (ZMod 2)
      (fun i : Fin (pivotList Aᵀ).length => A ((pivotList Aᵀ).get i)) :=
  pivot_cols_linearIndependent false Aᵀ

theorem rowBasisRows_span_eq {m n : ℕ} (A : Matrix (Fin m) (Fin n) (ZMod 2)) :
    listSpan (rowBasisRows A) = rowSpan A := by
  unfold listSpan rowBasisRows rowSpan
  have h1 : {v | v ∈ (pivotList Aᵀ).map fun i => A i} =
      (fun i => A i) '' {a | a ∈ pivotList Aᵀ} := by
    ext v
    simp [List.mem_map]
  rw [h1, ← range_get_image]
  exact pivot_cols_span false Aᵀ

theorem rowBasisRows_are_rows {m n : ℕ} (A : Matrix (Fin m) (Fin n) (ZMod 2)) :
    ∀ v ∈ rowBasisRows A, ∃ i : Fin m, v = A i := by
  intro v hv
  simp only [rowBasisRows, List.mem_map] at hv
  obtain ⟨p, _, rfl⟩ := hv
  exact ⟨p, rfl⟩

theorem listSpan_eq_span_range_get {n : ℕ} (L : List (Fin n → ZMod 2)) :
    listSpan L = Submodule.span (ZMod 2) (Set.range fun i : Fin L.length => L.get i) := by
  have hset : {v | v ∈ L} = Set.range fun i : Fin L.length => L.get i := by
    ext v
    constructor
    · intro hv
      obtain ⟨i, rfl⟩ := List.mem_iff_get.mp hv
      exact ⟨i, rfl⟩
    · rintro ⟨i, rfl⟩
      exact List.get_mem L (i : ℕ) i.isLt
  unfold listSpan
  rw [hset]

theorem pivot_count_list {N : ℕ} (Lst : List (Fin N → ZMod 2)) :
    (rowEchelon false (ofRows Lst)ᵀ).pivotCols.length
      = Module.finrank (ZMod 2) (listSpan Lst) := by
  rw [pivot_length_eq_rank false (ofRows Lst)ᵀ, Matrix.rank_eq_finrank_span_cols,
    listSpan_eq_span_range_get]
  rfl

theorem prefix_pivots {N : ℕ} (stack : List (Fin N → ZMod 2)) (L : ℕ) (hL : L ≤ stack.length)
    (hind : LinearIndependent (ZMod 2) (fun k : Fin L => stack.get (Fin.castLE hL k)))
    (i : Fin stack.length) (hi : (i : ℕ) < L) :
    i ∈ (rowEchelon false (ofRows stack)ᵀ).pivotCols := by
  by_contra hni
  have hmem := echelon_nonpivot_col_mem_A false (ofRows stack)ᵀ i hni
  have hsub : ((fun c => ((ofRows stack)ᵀ)ᵀ c) '' {c : Fin stack.length | (c : ℕ) < (i : ℕ)}) ⊆
      (fun k : Fin L => stack.get (Fin.castLE hL k)) '' {k : Fin L | k ≠ ⟨(i : ℕ), hi⟩} := by
    rintro v ⟨c, hcv, rfl⟩
    have hcval : (c : ℕ) < (i : ℕ) := hcv
    refine ⟨⟨(c : ℕ), lt_trans hcval hi⟩, ?_, rfl⟩
    intro he
    have hval : (c : ℕ) = (i : ℕ) := Fin.mk.inj he
    omega
  have hmem2 : stack.get i ∈ Submodule.span (ZMod 2)
      ((fun k : Fin L => stack.get (Fin.castLE hL k)) '' {k : Fin L | k ≠ ⟨(i : ℕ), hi⟩}) :=
    Submodule.span_mono hsub hmem
  have hnot : (⟨(i : ℕ), hi⟩ : Fin L) ∉ {k : Fin L | k ≠ ⟨(i : ℕ), hi⟩} := by simp
  exact LinearIndependent.not_mem_span_image hind hnot hmem2

theorem rowBasis_get_indep {m N : ℕ} (hb : Matrix (Fin m) (Fin N) (ZMod 2)) :
    LinearIndependent (ZMod 2)
      (fun k : Fin (rowBasisRows hb).length => (rowBasisRows hb).get k) := by
  have hlen : (rowBasisRows hb).length = (pivotList hbᵀ).length := by
    unfold rowBasisRows
    exact List.length_map _ _
  have h := rowBasisRows_indep hb
  have he : (fun k : Fin (rowBasisRows hb).length => (rowBasisRows hb).get k) =
      (fun i : Fin (pivotList hbᵀ).length => hb ((pivotList hbᵀ).get i)) ∘ (finCongr hlen) := by
    funext k
    show (rowBasisRows hb).get k = hb ((pivotList hbᵀ).get (finCongr hlen k))
    unfold rowBasisRows
    rw [List.get_map]
    congr 1
  rw [he]
  exact (linearIndependent_equiv (finCongr hlen)).mpr h

theorem stack_img_indep {ma mb N : ℕ} (ha : Matrix (Fin ma) (Fin N) (ZMod 2))
    (hb : Matrix (Fin mb) (Fin N) (ZMod 2))
    (hL : (rowBasisRows hb).length ≤ (rowBasisRows hb ++ nullspaceRows ha).length) :
    LinearIndependent (ZMod 2)
      (fun k : Fin (rowBasisRows hb).length =>
        (rowBasisRows hb ++ nullspaceRows ha).get (Fin.castLE hL k)) := by
  have he : (fun k : Fin (rowBasisRows hb).length =>
      (rowBasisRows hb ++ nullspaceRows ha).get (Fin.castLE hL k)) =
      fun k : Fin (rowBasisRows hb).length => (rowBasisRows hb).get k := by
    funext k
    exact List.get_append_left _ _ k.isLt
  rw [he]
  exact rowBasis_get_indep hb

theorem lzStack_length {ma mb N : ℕ} (ha : Matrix (Fin ma) (Fin N) (ZMod 2))
    (hb : Matrix (Fin mb) (Fin N) (ZMod 2)) :
    (lzStack ha hb).length = (rowBasisRows hb).length + (nullspaceRows ha).length :=
  List.length_append _ _

theorem imgLen_le {ma mb N : ℕ} (ha : Matrix (Fin ma) (Fin N) (ZMod 2))
    (hb : Matrix (Fin mb) (Fin N) (ZMod 2)) :
    (rowBasisRows hb).length ≤ (lzStack ha hb).length := by
  rw [lzStack_length]
  exact Nat.le_add_right _ _

theorem lzPivots_nodup {ma mb N : ℕ} (ha : Matrix (Fin ma) (Fin N) (ZMod 2))
    (hb : Matrix (Fin mb) (Fin N) (ZMod 2)) : (lzPivots ha hb).Nodup :=
  pairwise_val_nodup (rowEchelon_inv false (ofRows (lzStack ha hb))ᵀ).psorted

theorem lz_prefix_mem {ma mb N : ℕ} (ha : Matrix (Fin ma) (Fin N) (ZMod 2))
    (hb : Matrix (Fin mb) (Fin N) (ZMod 2)) (i : Fin (lzStack ha hb).length)
    (hi : (i : ℕ) < (rowBasisRows hb).length) : i ∈ lzPivots ha hb :=
  prefix_pivots (lzStack ha hb) (rowBasisRows hb).length (imgLen_le ha hb)
    (stack_img_indep ha hb (imgLen_le ha hb)) i hi

theorem lz_pivots_below {ma mb N : ℕ} (ha : Matrix (Fin ma) (Fin N) (ZMod 2))
    (hb : Matrix (Fin mb) (Fin N) (ZMod 2)) :
    ((lzPivots ha hb).filter fun p =>
      decide (Fin.val p < (rowBasisRows hb).length)).length = (rowBasisRows hb).length := by
  have h1 : (((lzPivots ha hb).filter fun p =>
      decide (Fin.val p < (rowBasisRows hb).length)).map Fin.val).Perm
      (List.range (rowBasisRows hb).length) := by
    apply (List.perm_ext_iff_of_nodup ?_ ?_).mpr
    · intro x
      simp only [List.mem_map, List.mem_filter, List.mem_range, decide_eq_true_eq]
      constructor
      · rintro ⟨p, ⟨_, hplt⟩, rfl⟩
        exact hplt
      · intro hx
        have hxs : x < (lzStack ha hb).length := lt_of_lt_of_le hx (imgLen_le ha hb)
        exact ⟨⟨x, hxs⟩, ⟨lz_prefix_mem ha hb ⟨x, hxs⟩ hx, hx⟩, rfl⟩
    · exact List.Nodup.map Fin.val_injective (List.Nodup.filter _ (lzPivots_nodup ha hb))
    · exact List.nodup_range _
  have h2 := h1.length_eq
  rw [List.length_map, List.length_range] at h2
  exact h2

theorem lz_length_split {ma mb N : ℕ} (ha : Matrix (Fin ma) (Fin N) (ZMod 2))
    (hb : Matrix (Fin mb) (Fin N) (ZMod 2)) :
    (lzPivots ha hb).length = (rowBasisRows hb).length + (lzSelected ha hb).length := by
  have h : (lzPivots ha hb).length =
      ((lzPivots ha hb).filter fun p =>
        decide (Fin.val p < (rowBasisRows hb).length)).length +
      ((lzPivots ha hb).filter fun p =>
        !decide (Fin.val p < (rowBasisRows hb).length)).length :=
    List.length_eq_length_filter_add _
  rw [lz_pivots_below ha hb] at h
  exact h

theorem compute_lz_eq_selected {ma mb N : ℕ} (ha : Matrix (Fin ma) (Fin N) (ZMod 2))
    (hb : Matrix (Fin mb) (Fin N) (ZMod 2)) :
    compute_lz ha hb = (lzSelected ha hb).map fun p => (lzStack ha hb).get p := by
  show (((List.range' (rowBasisRows hb).length (nullspaceRows ha).length).filter
      fun i => decide (i ∈ (lzPivots ha hb).map Fin.val)).map
      fun i => (lzStack ha hb).getD i fun _ => 0) = _
  have hsel : ((List.range' (rowBasisRows hb).length (nullspaceRows ha).length).filter
      fun i => decide (i ∈ (lzPivots ha hb).map Fin.val)) =
      (lzSelected ha hb).map Fin.val := by
    have hanti : IsAntisymm ℕ (· < ·) := ⟨fun a b h1 h2 => absurd h1 (by omega)⟩
    have hperm : ((List.range' (rowBasisRows hb).length (nullspaceRows ha).length).filter
        fun i => decide (i ∈ (lzPivots ha hb).map Fin.val)).Perm
        ((lzSelected ha hb).map Fin.val) := by
      apply (List.perm_ext_iff_of_nodup ?_ ?_).mpr
      · intro x
        simp only [List.mem_filter, List.mem_map, List.mem_range'_1, decide_eq_true_eq,
          lzSelected, Bool.not_eq_true', decide_eq_false_iff_not]
        constructor
        · rintro ⟨⟨hxle, hxlt⟩, p, hpP, rfl⟩
          exact ⟨p, ⟨hpP, by omega⟩, rfl⟩
        · rintro ⟨p, ⟨hpP, hpge⟩, rfl⟩
          have hplt := p.isLt
          have hlen := lzStack_length ha hb
          exact ⟨⟨by omega, by omega⟩, p, hpP, rfl⟩
      · exact List.Nodup.filter _ (List.nodup_range' _ _)
      · exact List.Nodup.map Fin.val_injective
          (List.Nodup.filter _ (lzPivots_nodup ha hb))
    have hs1 : ((List.range' (rowBasisRows hb).length (nullspaceRows ha).length).filter
        fun i => decide (i ∈ (lzPivots ha hb).map Fin.val)).Pairwise (· < ·) :=
      List.Pairwise.filter _ (List.pairwise_lt_range' _ _)
    have hs2 : ((lzSelected ha hb).map Fin.val).Pairwise (· < ·) := by
      apply List.Pairwise.map Fin.val (fun a b h => h)
      exact List.Pairwise.filter _
        (rowEchelon_inv false (ofRows (lzStack ha hb))ᵀ).psorted
    exact @List.eq_of_perm_of_sorted ℕ (· < ·) hanti _ _ hperm hs1 hs2
  rw [hsel, List.map_map]
  apply List.map_eq_map_iff.mpr
  intro p _
  show (lzStack ha hb).getD (p : ℕ) (fun _ => 0) = (lzStack ha hb).get p
  rw [List.getD_eq_get _ _ p.isLt]

theorem compute_lz_length_eq {ma mb N : ℕ} (ha : Matrix (Fin ma) (Fin N) (ZMod 2))
    (hb : Matrix (Fin mb) (Fin N) (ZMod 2)) :
    (compute_lz ha hb).length = (lzSelected ha hb).length := by
  rw [compute_lz_eq_selected]
  exact List.length_map _ _

theorem lzStack_span {ma mb N : ℕ} (ha : Matrix (Fin ma) (Fin N) (ZMod 2))
    (hb : Matrix (Fin mb) (Fin N) (ZMod 2)) (hsub : rowSpan hb ≤ nullSpace ha) :
    listSpan (lzStack ha hb) = nullSpace ha := by
  show listSpan (rowBasisRows hb ++ nullspaceRows ha) = _
  rw [listSpan_append, rowBasisRows_span_eq, nullspaceRows_span_eq]
  exact sup_eq_right.mpr hsub

theorem compute_lz_count {ma mb N : ℕ} (ha : Matrix (Fin ma) (Fin N) (ZMod 2))
    (hb : Matrix (Fin mb) (Fin N) (ZMod 2)) (hsub : rowSpan hb ≤ nullSpace ha) :
    (compute_lz ha hb).length + hb.rank + ha.rank = N := by
  have h1 : (lzPivots ha hb).length = Module.finrank (ZMod 2) (nullSpace ha) := by
    show (rowEchelon false (ofRows (lzStack ha hb))ᵀ).pivotCols.length = _
    rw [pivot_count_list (lzStack ha hb), lzStack_span ha hb hsub]
  have h2 := lz_length_split ha hb
  have h3 : (rowBasisRows hb).length = hb.rank := rowBasisRows_length hb
  have h4 := rank_add_finrank_nullSpace ha
  have h5 := compute_lz_length_eq ha hb
  omega

theorem filter_get_indep {n sl : ℕ} (v : Fin sl → (Fin n → ZMod 2)) (P : List (Fin sl))
    (hnd : P.Nodup)
    (hind : LinearIndependent (ZMod 2) (fun i : Fin P.length => v (P.get i)))
    (pred : Fin sl → Bool) :
    LinearIndependent (ZMod 2)
      (fun q : Fin (P.filter pred).length => v ((P.filter pred).get q)) := by
  set Pf := P.filter pred with hPf
  have hmem : ∀ q : Fin Pf.length, Pf.get q ∈ P := fun q =>
    List.mem_of_mem_filter (List.get_mem Pf _ q.isLt)
  have hidxlt : ∀ q : Fin Pf.length, P.indexOf (Pf.get q) < P.length := fun q =>
    List.indexOf_lt_length.mpr (hmem q)
  have hgget : ∀ q : Fin Pf.length, P.get ⟨P.indexOf (Pf.get q), hidxlt q⟩ = Pf.get q :=
    fun q => List.indexOf_get (hidxlt q)
  have hginj : Function.Injective
      (fun q : Fin Pf.length => (⟨P.indexOf (Pf.get q), hidxlt q⟩ : Fin P.length)) := by
    intro q1 q2 hq
    have hq' : (⟨P.indexOf (Pf.get q1), hidxlt q1⟩ : Fin P.length) =
        ⟨P.indexOf (Pf.get q2), hidxlt q2⟩ := hq
    have h2 : Pf.get q1 = Pf.get q2 := by
      rw [← hgget q1, ← hgget q2, hq']
    exact (List.Nodup.get_inj_iff (List.Nodup.filter _ hnd)).mp h2
  have he : (fun q : Fin Pf.length => v (Pf.get q)) =
      (fun i : Fin P.length => v (P.get i)) ∘
        (fun q : Fin Pf.length => (⟨P.indexOf (Pf.get q), hidxlt q⟩ : Fin P.length)) := by
    funext q
    show v (Pf.get q) = v (P.get ⟨P.indexOf (Pf.get q), hidxlt q⟩)
    rw [hgget q]
  rw [he]
  exact hind.comp _ hginj

theorem map_get_indep_of_get {n sl : ℕ} (v : Fin sl → (Fin n → ZMod 2)) (S : List (Fin sl))
    (hind : LinearIndependent (ZMod 2) fun q : Fin S.length => v (S.get q)) :
    LinearIndependent (ZMod 2) fun q : Fin (S.map v).length => (S.map v).get q := by
  have hlen : (S.map v).length = S.length := List.length_map _ _
  have he : (fun q : Fin (S.map v).length => (S.map v).get q) =
      (fun j : Fin S.length => v (S.get j)) ∘ (finCongr hlen) := by
    funext q
    show (S.map v).get q = v (S.get (finCongr hlen q))
    rw [List.get_map]
    congr 1
  rw [he]
  exact (linearIndependent_equiv (finCongr hlen)).mpr hind

theorem compute_lz_indep {ma mb N : ℕ} (ha : Matrix (Fin ma) (Fin N) (ZMod 2))
    (hb : Matrix (Fin mb) (Fin N) (ZMod 2)) :
    LinearIndependent (ZMod 2)
      (fun q : Fin (compute_lz ha hb).length => (compute_lz ha hb).get q) := by
  have heq := compute_lz_eq_selected ha hb
  have hind2 : LinearIndependent (ZMod 2)
      (fun q : Fin ((lzSelected ha hb).map fun p => (lzStack ha hb).get p).length =>
        ((lzSelected ha hb).map fun p => (lzStack ha hb).get p).get q) := by
    apply map_get_indep_of_get
    show LinearIndependent (ZMod 2)
      (fun q : Fin (lzSelected ha hb).length => (lzStack ha hb).get ((lzSelected ha hb).get q))
    apply filter_get_indep _ _ (lzPivots_nodup ha hb)
    exact pivot_cols_linearIndependent false (ofRows (lzStack ha hb))ᵀ
  rw [← heq] at hind2
  exact hind2

theorem compute_lz_mem_ker {ma mb N : ℕ} (ha : Matrix (Fin ma) (Fin N) (ZMod 2))
    (hb : Matrix (Fin mb) (Fin N) (ZMod 2)) :
    ∀ v ∈ compute_lz ha hb, v ∈ nullspaceRows ha := by
  intro v hv
  rw [compute_lz_eq_selected ha hb] at hv
  simp only [List.mem_map] at hv
  obtain ⟨p, hpsel, rfl⟩ := hv
  have hp2 := (List.mem_filter.mp hpsel).2
  have hpge : (rowBasisRows hb).length ≤ (p : ℕ) := by
    rcases Nat.lt_or_ge (p : ℕ) (rowBasisRows hb).length with h | h
    · rw [decide_eq_true h] at hp2
      exact absurd hp2 (by simp)
    · exact h
  have hplt := p.isLt
  have hlen := lzStack_length ha hb
  have hker : (p : ℕ) - (rowBasisRows hb).length < (nullspaceRows ha).length := by omega
  have hget : (lzStack ha hb).get p =
      (nullspaceRows ha).get ⟨(p : ℕ) - (rowBasisRows hb).length, hker⟩ :=
    List.get_append_right _ _ hpge
  rw [hget]
  exact List.get_mem _ _ hker

theorem compute_lz_le_null {ma mb N : ℕ} (ha : Matrix (Fin ma) (Fin N) (ZMod 2))
    (hb : Matrix (Fin mb) (Fin N) (ZMod 2)) :
    listSpan (compute_lz ha hb) ≤ nullSpace ha :=
  Submodule.span_le.mpr fun v hv => nullspaceRows_mem_null ha v (compute_lz_mem_ker ha hb v hv)

theorem lz_pivot_span {ma mb N : ℕ} (ha : Matrix (Fin ma) (Fin N) (ZMod 2))
    (hb : Matrix (Fin mb) (Fin N) (ZMod 2)) :
    Submodule.span (ZMod 2) (Set.range fun i : Fin (lzPivots ha hb).length =>
      (lzStack ha hb).get ((lzPivots ha hb).get i)) = listSpan (lzStack ha hb) := by
  rw [listSpan_eq_span_range_get]
  exact pivot_cols_span false (ofRows (lzStack ha hb))ᵀ

theorem lz_span_parts {ma mb N : ℕ} (ha : Matrix (Fin ma) (Fin N) (ZMod 2))
    (hb : Matrix (Fin mb) (Fin N) (ZMod 2)) :
    Submodule.span (ZMod 2) ((fun i : Fin (lzPivots ha hb).length =>
        (lzStack ha hb).get ((lzPivots ha hb).get i)) ''
        {i : Fin (lzPivots ha hb).length |
          ((lzPivots ha hb).get i : ℕ) < (rowBasisRows hb).length})
      = rowSpan hb := by
  apply le_antisymm
  · apply Submodule.span_le.mpr
    rintro v ⟨i, hi, rfl⟩
    have hival : ((lzPivots ha hb).get i : ℕ) < (rowBasisRows hb).length := hi
    have hget : (lzStack ha hb).get ((lzPivots ha hb).get i) =
        (rowBasisRows hb).get ⟨((lzPivots ha hb).get i : ℕ), hival⟩ :=
      List.get_append_left _ _ hival
    show (lzStack ha hb).get ((lzPivots ha hb).get i) ∈ (rowSpan hb : Set (Fin N → ZMod 2))
    rw [hget, ← rowBasisRows_span_eq hb]
    exact Submodule.subset_span (List.get_mem _ _ hival)
  · rw [← rowBasisRows_span_eq hb]
    apply Submodule.span_le.mpr
    intro u hu
    obtain ⟨k, hk⟩ := List.mem_iff_get.mp hu
    have hkS : (k : ℕ) < (lzStack ha hb).length :=
      lt_of_lt_of_le k.isLt (imgLen_le ha hb)
    have hmemP : (⟨(k : ℕ), hkS⟩ : Fin (lzStack ha hb).length) ∈ lzPivots ha hb :=
      lz_prefix_mem ha hb ⟨(k : ℕ), hkS⟩ k.isLt
    obtain ⟨i, hi⟩ := List.mem_iff_get.mp hmemP
    apply Submodule.subset_span
    refine ⟨i, ?_, ?_⟩
    · show ((lzPivots ha hb).get i : ℕ) < (rowBasisRows hb).length
      rw [hi]
      exact k.isLt
    · show (lzStack ha hb).get ((lzPivots ha hb).get i) = u
      rw [hi]
      have hget : (lzStack ha hb).get ⟨(k : ℕ), hkS⟩ = (rowBasisRows hb).get ⟨(k : ℕ), k.isLt⟩ :=
        List.get_append_left _ _ k.isLt
      rw [hget, ← hk]

theorem lz_span_selected {ma mb N : ℕ} (ha : Matrix (Fin ma) (Fin N) (ZMod 2))
    (hb : Matrix (Fin mb) (Fin N) (ZMod 2)) :
    Submodule.span (ZMod 2) ((fun i : Fin (lzPivots ha hb).length =>
        (lzStack ha hb).get ((lzPivots ha hb).get i)) ''
        {i : Fin (lzPivots ha hb).length |
          ¬ ((lzPivots ha hb).get i : ℕ) < (rowBasisRows hb).length})
      = listSpan (compute_lz ha hb) := by
  rw [compute_lz_eq_selected ha hb]
  unfold listSpan
  congr 1
  ext v
  constructor
  · rintro ⟨i, hi, rfl⟩
    have hival : ¬ ((lzPivots ha hb).get i : ℕ) < (rowBasisRows hb).length := hi
    show (lzStack ha hb).get ((lzPivots ha hb).get i) ∈
      (lzSelected ha hb).map fun p => (lzStack ha hb).get p
    apply List.mem_map_of_mem
    apply List.mem_filter.mpr
    refine ⟨List.get_mem _ _ i.isLt, ?_⟩
    simp only [Bool.not_eq_true', decide_eq_false_iff_not]
    exact hival
  · intro hv
    simp only [List.mem_map] at hv
    obtain ⟨p, hpsel, rfl⟩ := hv
    have hp1 := (List.mem_filter.mp hpsel).1
    have hp2 := (List.mem_filter.mp hpsel).2
    obtain ⟨i, hi⟩ := List.mem_iff_get.mp hp1
    refine ⟨i, ?_, ?_⟩
    · show ¬ ((lzPivots ha hb).get i : ℕ) < (rowBasisRows hb).length
      rw [hi]
      simp only [Bool.not_eq_true', decide_eq_false_iff_not] at hp2
      exact hp2
    · show (lzStack ha hb).get ((lzPivots ha hb).get i) = (lzStack ha hb).get p
      rw [hi]

theorem compute_lz_disjoint {ma mb N : ℕ} (ha : Matrix (Fin ma) (Fin N) (ZMod 2))
    (hb : Matrix (Fin mb) (Fin N) (ZMod 2)) :
    Disjoint (rowSpan hb) (listSpan (compute_lz ha hb)) := by
  rw [← lz_span_parts ha hb, ← lz_span_selected ha hb]
  apply LinearIndependent.disjoint_span_image
    (pivot_cols_linearIndependent false (ofRows (lzStack ha hb))ᵀ)
  rw [Set.disjoint_left]
  intro i hi hni
  exact hni hi

theorem null_le_sup {ma mb N : ℕ} (ha : Matrix (Fin ma) (Fin N) (ZMod 2))
    (hb : Matrix (Fin mb) (Fin N) (ZMod 2)) (hsub : rowSpan hb ≤ nullSpace ha) :
    nullSpace ha ≤ rowSpan hb ⊔ listSpan (compute_lz ha hb) := by
  rw [← lzStack_span ha hb hsub, ← lz_pivot_span ha hb]
  have hsplit : (Set.range fun i : Fin (lzPivots ha hb).length =>
      (lzStack ha hb).get ((lzPivots ha hb).get i)) =
      ((fun i : Fin (lzPivots ha hb).length =>
        (lzStack ha hb).get ((lzPivots ha hb).get i)) ''
        {i : Fin (lzPivots ha hb).length |
          ((lzPivots ha hb).get i : ℕ) < (rowBasisRows hb).length}) ∪
      ((fun i : Fin (lzPivots ha hb).length =>
        (lzStack ha hb).get ((lzPivots ha hb).get i)) ''
        {i : Fin (lzPivots ha hb).length |
          ¬ ((lzPivots ha hb).get i : ℕ) < (rowBasisRows hb).length}) := by
    rw [← Set.image_union]
    have huniv : {i : Fin (lzPivots ha hb).length |
          ((lzPivots ha hb).get i : ℕ) < (rowBasisRows hb).length} ∪
        {i : Fin (lzPivots ha hb).length |
          ¬ ((lzPivots ha hb).get i : ℕ) < (rowBasisRows hb).length} = Set.univ := by
      ext i
      by_cases h : ((lzPivots ha hb).get i : ℕ) < (rowBasisRows hb).length
      · exact ⟨fun _ => trivial, fun _ => Or.inl h⟩
      · exact ⟨fun _ => trivial, fun _ => Or.inr h⟩
    rw [huniv, Set.image_univ]
  rw [hsplit, Submodule.span_union, lz_span_parts ha hb, lz_span_selected ha hb]

theorem dot_zero_of_mem_span {n : ℕ} (v : Fin n → ZMod 2) (S : Set (Fin n → ZMod 2))
    (hgen : ∀ u ∈ S, Matrix.dotProduct v u = 0) :
    ∀ w ∈ Submodule.span (ZMod 2) S, Matrix.dotProduct v w = 0 := by
  intro w hw
  induction hw using Submodule.span_induction with
  | mem x hx => exact hgen x hx
  | zero => simp [Matrix.dotProduct]
  | add x y hx1 hy1 hx hy => rw [dotProduct_add, hx, hy, add_zero]
  | smul c x hx1 hx => rw [dotProduct_smul, hx, smul_zero]

theorem finrank_rowSpan {m n : ℕ} (A : Matrix (Fin m) (Fin n) (ZMod 2)) :
    Module.finrank (ZMod 2) (rowSpan A) = A.rank := by
  have h := Matrix.rank_eq_finrank_span_cols Aᵀ
  rw [Matrix.rank_transpose] at h
  rw [h]
  rfl

theorem perp_null_mem_rowSpan {m n : ℕ} (A : Matrix (Fin m) (Fin n) (ZMod 2))
    (v : Fin n → ZMod 2)
    (hperp : ∀ w ∈ nullSpace A, Matrix.dotProduct v w = 0) : v ∈ rowSpan A := by
  set B : Matrix (Fin (m + 1)) (Fin n) (ZMod 2) := Matrix.of (Fin.cons v (fun i => A i))
    with hB
  have hB0 : B 0 = v := by
    funext j
    rw [hB, Matrix.of_apply, Fin.cons_zero]
  have hBs : ∀ i : Fin m, B i.succ = A i := by
    intro i
    funext j
    rw [hB, Matrix.of_apply, Fin.cons_succ]
  have hnull : nullSpace B = nullSpace A := by
    ext w
    simp only [nullSpace, LinearMap.mem_ker, Matrix.mulVecLin_apply]
    constructor
    · intro h
      funext r
      show Matrix.dotProduct (A r) w = 0
      have hr : Matrix.dotProduct (B r.succ) w = 0 := congrFun h r.succ
      rw [← hBs r]
      exact hr
    · intro h
      funext r
      show Matrix.dotProduct (B r) w = 0
      refine Fin.cases ?_ ?_ r
      · rw [hB0]
        apply hperp
        show A.mulVec w = 0
        exact h
      · intro i
        rw [hBs i]
        exact congrFun h i
  have hrank : B.rank = A.rank := by
    have h1 := rank_add_finrank_nullSpace A
    have h2 := rank_add_finrank_nullSpace B
    rw [hnull] at h2
    omega
  have hle : rowSpan A ≤ rowSpan B := by
    unfold rowSpan
    apply Submodule.span_le.mpr
    rintro u ⟨i, rfl⟩
    apply Submodule.subset_span
    exact ⟨i.succ, hBs i⟩
  have heq : rowSpan A = rowSpan B := by
    apply Submodule.eq_of_le_of_finrank_le hle
    rw [finrank_rowSpan, finrank_rowSpan, hrank]
  rw [heq]
  apply Submodule.subset_span
  exact ⟨0, hB0⟩

theorem rowSpan_le_null_of_comm {mx mz N : ℕ} (hx : Matrix (Fin mx) (Fin N) (ZMod 2))
    (hz : Matrix (Fin mz) (Fin N) (ZMod 2)) (h : hx * hzᵀ = 0) :
    rowSpan hz ≤ nullSpace hx := by
  unfold rowSpan
  apply Submodule.span_le.mpr
  rintro u ⟨r, rfl⟩
  show hx.mulVec (hz r) = 0
  funext i
  show Matrix.dotProduct (hx i) (hz r) = 0
  have h2 := congrFun (congrFun h i) r
  rw [Matrix.mul_apply] at h2
  exact h2

theorem comm_swap {mx mz N : ℕ} (hx : Matrix (Fin mx) (Fin N) (ZMod 2))
    (hz : Matrix (Fin mz) (Fin N) (ZMod 2)) (h : hx * hzᵀ = 0) : hz * hxᵀ = 0 := by
  have h2 := congrArg Matrix.transpose h
  rwa [Matrix.transpose_mul, Matrix.transpose_transpose, Matrix.transpose_zero] at h2

theorem ofRows_mul_transpose_zero {mz N : ℕ} (L : List (Fin N → ZMod 2))
    (hz : Matrix (Fin mz) (Fin N) (ZMod 2))
    (hmem : ∀ v ∈ L, v ∈ nullSpace hz) :
    ofRows L * hzᵀ = 0 := by
  funext i r
  show ∑ j : Fin N, ofRows L i j * hzᵀ j r = 0
  have hv : hz.mulVec (L.get i) = 0 := hmem (L.get i) (List.get_mem L _ i.isLt)
  have hr : Matrix.dotProduct (hz r) (L.get i) = 0 := congrFun hv r
  have hcomm : ∑ j : Fin N, ofRows L i j * hzᵀ j r =
      ∑ j : Fin N, hz r j * L.get i j :=
    Finset.sum_congr rfl fun j _ => mul_comm _ _
  rw [hcomm]
  exact hr

theorem pairing_vecMul_injective {mx mz N : ℕ}
    (hx : Matrix (Fin mx) (Fin N) (ZMod 2)) (hz : Matrix (Fin mz) (Fin N) (ZMod 2))
    (hcomm : hx * hzᵀ = 0) :
    ∀ c : Fin (compute_lz hz hx).length → ZMod 2,
      Matrix.vecMul c (ofRows (compute_lz hz hx) * (ofRows (compute_lz hx hz))ᵀ) = 0 →
      c = 0 := by
  intro c hc
  have hsubz : rowSpan hz ≤ nullSpace hx := rowSpan_le_null_of_comm hx hz hcomm
  set X := ofRows (compute_lz hz hx) with hX
  set Z := ofRows (compute_lz hx hz) with hZ
  set v := Matrix.vecMul c X with hv
  have hvsum : v = ∑ i : Fin (compute_lz hz hx).length, c i • (compute_lz hz hx).get i := by
    funext j
    rw [Finset.sum_apply]
    simp only [Pi.smul_apply, smul_eq_mul]
    rfl
  have hvspan : v ∈ listSpan (compute_lz hz hx) := by
    rw [hvsum]
    exact Submodule.sum_mem _ fun i _ =>
      Submodule.smul_mem _ _ (Submodule.subset_span (List.get_mem _ _ i.isLt))
  have hvnull : v ∈ nullSpace hz := compute_lz_le_null hz hx hvspan
  have hvnullz : hz.mulVec v = 0 := hvnull
  have hzz : Matrix.vecMul v Zᵀ = 0 := by
    rw [hv, Matrix.vecMul_vecMul]
    exact hc
  have hperp_lz : ∀ u ∈ compute_lz hx hz, Matrix.dotProduct v u = 0 := by
    intro u hu
    obtain ⟨i, hi⟩ := List.mem_iff_get.mp hu
    have h2 : Matrix.dotProduct v (Z i) = 0 := congrFun hzz i
    rw [← hi]
    exact h2
  have hperp_hz : ∀ r : Fin mz, Matrix.dotProduct v (hz r) = 0 := by
    intro r
    rw [dotProduct_comm]
    exact congrFun hvnullz r
  have hperpnull : ∀ w ∈ nullSpace hx, Matrix.dotProduct v w = 0 := by
    intro w hw
    obtain ⟨w1, hw1, w2, hw2, hsum⟩ := Submodule.mem_sup.mp (null_le_sup hx hz hsubz hw)
    rw [← hsum, dotProduct_add]
    have hd1 : Matrix.dotProduct v w1 = 0 := by
      refine dot_zero_of_mem_span v (Set.range hz) ?_ w1 hw1
      rintro u ⟨r, rfl⟩
      exact hperp_hz r
    have hd2 : Matrix.dotProduct v w2 = 0 := by
      refine dot_zero_of_mem_span v {u | u ∈ compute_lz hx hz} ?_ w2 hw2
      intro u hu
      exact hperp_lz u hu
    rw [hd1, hd2, add_zero]
  have hvrow : v ∈ rowSpan hx := perp_null_mem_rowSpan hx v hperpnull
  have hv0 : v = 0 := Submodule.disjoint_def.mp (compute_lz_disjoint hz hx) v hvrow hvspan
  have hind := compute_lz_indep hz hx
  rw [Fintype.linearIndependent_iff] at hind
  funext i
  refine hind c ?_ i
  rw [← hvsum]
  exact hv0

theorem pairing_rank {mx mz N : ℕ}
    (hx : Matrix (Fin mx) (Fin N) (ZMod 2)) (hz : Matrix (Fin mz) (Fin N) (ZMod 2))
    (hcomm : hx * hzᵀ = 0) :
    (ofRows (compute_lz hz hx) * (ofRows (compute_lz hx hz))ᵀ).rank
      = (compute_lz hz hx).length := by
  set W := ofRows (compute_lz hz hx) * (ofRows (compute_lz hx hz))ᵀ with hW
  have hWind : LinearIndependent (ZMod 2)
      (fun i : Fin (compute_lz hz hx).length => W i) := by
    rw [Fintype.linearIndependent_iff]
    intro g hg
    have hg2 : Matrix.vecMul g W = 0 := by
      funext j
      have h3 := congrFun hg j
      rw [Finset.sum_apply] at h3
      simp only [Pi.smul_apply, smul_eq_mul] at h3
      exact h3
    have hg0 := pairing_vecMul_injective hx hz hcomm g hg2
    intro i
    rw [hg0]
    rfl
  have hWind2 : LinearIndependent (ZMod 2) Wᵀᵀ := hWind
  have h1 := Matrix.rank_eq_finrank_span_cols Wᵀ
  rw [Matrix.rank_transpose] at h1
  rw [h1, finrank_span_eq_card hWind2, Fintype.card_fin]

/-- C1: for every pair of stabilizer matrices `hx`, `hz` with
`hx @ hz.T % 2 == 0`, the computed logical operators satisfy
`lx @ hz.T % 2 == 0` and `lz @ hx.T % 2 == 0`, and the mod-2 rank of the
pairing `lx @ lz.T % 2` equals `K = N - rank(hx) - rank(hz)`. -/
theorem C1_compute_logical_correct {mx mz N : ℕ}
    (hx : Matrix (Fin mx) (Fin N) (ZMod 2)) (hz : Matrix (Fin mz) (Fin N) (ZMod 2))
    (hcomm : hx * hzᵀ = 0) :
    ofRows (lxRows hx hz) * hzᵀ = 0 ∧
    ofRows (lzRows hx hz) * hxᵀ = 0 ∧
    mod2rank (ofRows (lxRows hx hz) * (ofRows (lzRows hx hz))ᵀ) =
      N - mod2rank hx - mod2rank hz := by
  have hcomm' : hz * hxᵀ = 0 := comm_swap hx hz hcomm
  have hsubx : rowSpan hx ≤ nullSpace hz := rowSpan_le_null_of_comm hz hx hcomm'
  refine ⟨?_, ?_, ?_⟩
  · exact ofRows_mul_transpose_zero _ hz fun u hu =>
      nullspaceRows_mem_null hz u (compute_lz_mem_ker hz hx u hu)
  · exact ofRows_mul_transpose_zero _ hx fun u hu =>
      nullspaceRows_mem_null hx u (compute_lz_mem_ker hx hz u hu)
  · have hcntx : (compute_lz hz hx).length + hx.rank + hz.rank = N :=
      compute_lz_count hz hx hsubx
    have hrk := pairing_rank hx hz hcomm
    have hrx := mod2rank_eq_rank hx
    have hrz := mod2rank_eq_rank hz
    have hW := mod2rank_eq_rank (ofRows (lxRows hx hz) * (ofRows (lzRows hx hz))ᵀ)
    rw [hW]
    have hlx : ofRows (lxRows hx hz) * (ofRows (lzRows hx hz))ᵀ =
        ofRows (compute_lz hz hx) * (ofRows (compute_lz hx hz))ᵀ := rfl
    rw [hlx, hrk]
    omega

/-- Witness for C1 at the concrete commuting pair `hx = hz = [[1, 1]]`
(`N = 2`, both ranks `1`, so `K = 0`). -/
theorem C1_compute_logical_correct_witness :
    exTwoOnes * exTwoOnesᵀ = 0 ∧
    (ofRows (lxRows exTwoOnes exTwoOnes) * exTwoOnesᵀ = 0 ∧
     ofRows (lzRows exTwoOnes exTwoOnes) * exTwoOnesᵀ = 0 ∧
     mod2rank (ofRows (lxRows exTwoOnes exTwoOnes) *
       (ofRows (lzRows exTwoOnes exTwoOnes))ᵀ) =
         2 - mod2rank exTwoOnes - mod2rank exTwoOnes) :=
  ⟨by decide, C1_compute_logical_correct exTwoOnes exTwoOnes (by decide)⟩

end CssMake
